import Mathlib

/-!
# Verification of the B&R PO Extractor queue / export core

Shallow embedding of the queue-consistency and export-alignment core of the
purchase-order intake tool: normalization utilities, dedupe key engine,
queue store transitions, session persistence, header alignment and the
tinting classifier, together with proofs of the specification's claims.

JavaScript strings are modelled as Lean `String`s (lists of characters);
JavaScript objects used as string-keyed maps are modelled as association
lists in property-insertion order; `undefined` is a distinguished value of
the `Val` type.  Host (engine) behaviour that the code calls into —
`new Date(string)` parsing and the local timezone — is modelled explicitly:
the ECMAScript-specified part (date-only ISO strings parse as UTC) is a
Lean function parameterised by the timezone offset, and the
implementation-defined heuristics for non-conforming strings are an
explicit function parameter.
-/

namespace POX

/-- The whitespace class of JavaScript's `\s` / `trim()` for the ASCII range:
space, tab, line feed, carriage return, vertical tab, form feed. -/
def jsIsSpace (c : Char) : Bool :=
  c == ' ' || c == '\t' || c == '\n' || c == '\r' || c == '\x0b' || c == '\x0c'

/-- `String.prototype.trim()` on a character list: drop leading and trailing
whitespace. -/
def trimChars (l : List Char) : List Char :=
  ((l.dropWhile jsIsSpace).reverse.dropWhile jsIsSpace).reverse

/-- `s.trim()`. -/
def jsTrim (s : String) : String := ⟨trimChars s.data⟩

/-- `s.toLowerCase()` (ASCII range, which is all the code relies on). -/
def jsToLower (s : String) : String := ⟨s.data.map Char.toLower⟩

/-- `.replace(/\s+/g, ' ')`: every maximal run of whitespace becomes a single
space.  The flag records whether we are inside a whitespace run. -/
def collapseWs (prevSpace : Bool) : List Char → List Char
  | [] => []
  | c :: rest =>
    if jsIsSpace c then
      if prevSpace then collapseWs true rest else ' ' :: collapseWs true rest
    else c :: collapseWs false rest

/-- `normalize` from `types.ts`: lowercase, trim, collapse internal
whitespace — used for dedupe fingerprinting. -/
def normalize (s : String) : String :=
  ⟨collapseWs false (trimChars (s.data.map Char.toLower))⟩

/-- The order-identity fields (`types.ts` `Order`). -/
structure Order where
  order_date : String
  customer_name : String
  order_number : String
deriving DecidableEq, Repr

/-- `createDedupeKey` from `types.ts`:
`${normalize customer}|${normalize number}|${normalize date}`. -/
def createDedupeKey (o : Order) : String :=
  normalize o.customer_name ++ "|" ++ normalize o.order_number ++ "|"
    ++ normalize o.order_date

/-- The whitespace-separated words of the lowercased string: the canonical
content that survives case changes and leading/trailing/internal whitespace
changes.  Accumulator holds the current word reversed. -/
def splitWordsAux (acc : List Char) : List Char → List (List Char)
  | [] => if acc.isEmpty then [] else [acc.reverse]
  | c :: rest =>
    if jsIsSpace c then
      if acc.isEmpty then splitWordsAux [] rest
      else acc.reverse :: splitWordsAux [] rest
    else splitWordsAux (c :: acc) rest

/-- The whitespace-delimited words of a character list. -/
def wordsOf (l : List Char) : List (List Char) := splitWordsAux [] l

/-- The words of the lowercased string: two strings differ only in letter
case and leading/trailing/internal whitespace exactly when their
`wordsLower` agree. -/
def wordsLower (s : String) : List (List Char) := wordsOf (s.data.map Char.toLower)

/-- Joining words back with single spaces. -/
def joinWords : List (List Char) → List Char
  | [] => []
  | [w] => w
  | w :: ws => w ++ ' ' :: joinWords ws

/-! ## Date normalization (`normalizeOrderDate` in `types.ts`) -/

/-- Local calendar-date components as read back by `getDate()`,
`getMonth() + 1` and `getFullYear()`. -/
structure DateParts where
  day : Int
  month : Int
  year : Int
deriving DecidableEq, Repr

/-- `/^\d{2}\/\d{2}\/\d{4}$/` — the canonical `dd/MM/yyyy` shape. -/
def isTargetFormat (s : String) : Bool :=
  match s.data with
  | [d1, d2, s1, d3, d4, s2, y1, y2, y3, y4] =>
    d1.isDigit && d2.isDigit && s1 == '/' && d3.isDigit && d4.isDigit
      && s2 == '/' && y1.isDigit && y2.isDigit && y3.isDigit && y4.isDigit
  | _ => false

/-- Decimal value of a digit list (most significant first). -/
def digitsToNat (l : List Char) : Nat :=
  l.foldl (fun n c => n * 10 + (c.toNat - '0'.toNat)) 0

/-- `String(n).padStart(2, '0')`: a single leading zero is added exactly when
the decimal rendering has one character, i.e. for `0 ≤ n ≤ 9`. -/
def pad2 (n : Int) : String :=
  if 0 ≤ n && n < 10 then "0" ++ toString n else toString n

/-- `${day}/${month}/${year}` with the day and month zero-padded, as built by
both the general-parse and manual-split branches of `normalizeOrderDate`. -/
def formatDateParts (p : DateParts) : String :=
  pad2 p.day ++ "/" ++ pad2 p.month ++ "/" ++ toString p.year

/-- Gregorian leap-year rule. -/
def isLeapYear (y : Int) : Bool :=
  (y % 4 == 0 && !(y % 100 == 0)) || y % 400 == 0

/-- Days in a month of the proleptic Gregorian calendar. -/
def daysInMonth (y m : Int) : Int :=
  if m == 2 then (if isLeapYear y then 29 else 28)
  else if m == 4 || m == 6 || m == 9 || m == 11 then 30
  else 31

/-- The calendar day before `p` (used when a UTC-midnight instant is read
back in a timezone west of UTC). -/
def prevCalendarDay (p : DateParts) : DateParts :=
  if 1 < p.day then ⟨p.day - 1, p.month, p.year⟩
  else if 1 < p.month then ⟨daysInMonth p.year (p.month - 1), p.month - 1, p.year⟩
  else ⟨31, 12, p.year - 1⟩

/-- Exactly `\d{4}-\d{2}-\d{2}`: the date-only ECMAScript Date Time String
Format shape, with its numeric components. -/
def isoDateShape (l : List Char) : Option (Nat × Nat × Nat) :=
  match l with
  | [y1, y2, y3, y4, s1, m1, m2, s2, d1, d2] =>
    if y1.isDigit && y2.isDigit && y3.isDigit && y4.isDigit && s1 == '-'
        && m1.isDigit && m2.isDigit && s2 == '-' && d1.isDigit && d2.isDigit then
      some (digitsToNat [y1, y2, y3, y4], digitsToNat [m1, m2], digitsToNat [d1, d2])
    else none
  | _ => none

/-- Model of the host's `new Date(string)` followed by reading the local
calendar components (`getDate`/`getMonth`/`getFullYear`).

ECMAScript specifies that a conforming date-only string `yyyy-mm-dd` is
parsed as midnight UTC; reading local components then shifts the calendar
day back by one exactly when the local offset `tzOffsetMin` (minutes east of
UTC, with `-1440 < tzOffsetMin < 1440` as for every real timezone) is
negative.  A `\d{4}-\d{2}-\d{2}` string whose components are out of range is
an invalid date.  Parsing of every other string is implementation-defined
("the function may fall back to any implementation-specific heuristics"),
abstracted here by the `legacyParse` parameter, which returns the local
components the engine would produce, or `none` for an invalid date. -/
def jsLocalDateParts (tzOffsetMin : Int) (legacyParse : String → Option DateParts)
    (s : String) : Option DateParts :=
  match isoDateShape s.data with
  | some (y, m, d) =>
    if 1 ≤ m && m ≤ 12 && 1 ≤ d && (d : Int) ≤ daysInMonth (y : Int) (m : Int) then
      if 0 ≤ tzOffsetMin then some ⟨(d : Int), (m : Int), (y : Int)⟩
      else some (prevCalendarDay ⟨(d : Int), (m : Int), (y : Int)⟩)
    else none
  | none => legacyParse s

/-- `c` is one of the separators of the manual split (dash or slash). -/
def isDateSep (c : Char) : Bool := c == '-' || c == '/'

/-- The dash-or-slash split of `String.prototype.split` on a character list: split at every separator, keeping
empty segments (as JavaScript's `String.prototype.split` does). -/
def splitOnSeps : List Char → List (List Char)
  | [] => [[]]
  | c :: rest =>
    if isDateSep c then [] :: splitOnSeps rest
    else
      match splitOnSeps rest with
      | p :: ps => (c :: p) :: ps
      | [] => [[c]]

/-- `trimmedDate.split(...)` on dash or slash. -/
def splitDateSeps (s : String) : List String :=
  (splitOnSeps s.data).map (fun l => ⟨l⟩)

/-- The longest digit run at the front, or `none` if there is none — the
digits `parseInt` consumes. -/
def takeDigits (l : List Char) : Option Nat :=
  let ds := l.takeWhile Char.isDigit
  if ds.isEmpty then none else some (digitsToNat ds)

/-- `parseInt(s, 10)`: skip leading whitespace, optional sign, then the
longest digit run; `none` models `NaN`. -/
def jsParseInt (s : String) : Option Int :=
  let l := s.data.dropWhile jsIsSpace
  match l with
  | [] => none
  | c :: r =>
    if c = '-' then (takeDigits r).map (fun n => -(n : Int))
    else if c = '+' then (takeDigits r).map (fun n => (n : Int))
    else (takeDigits l).map (fun n => (n : Int))

/-- The manual three-part split branch of `normalizeOrderDate`: split on
`-`/`/`, `parseInt` each part, read the parts as `yyyy-mm-dd` when the first
segment has four characters and as `dd-mm-yyyy` otherwise, and accept only
for day in `[1,31]`, month in `[1,12]`, year in `(1900,2100)` (a `NaN`
component fails every comparison). -/
def manualSplitDate (trimmed : String) : Option String :=
  match splitDateSeps trimmed with
  | [p1, p2, p3] =>
    let triple :=
      if p1.length = 4 then (jsParseInt p1, jsParseInt p2, jsParseInt p3)
      else (jsParseInt p3, jsParseInt p2, jsParseInt p1)
    match triple with
    | (some year, some month, some day) =>
      if 0 < day && day ≤ 31 && 0 < month && month ≤ 12
          && 1900 < year && year < 2100 then
        some (pad2 day ++ "/" ++ pad2 month ++ "/" ++ toString year)
      else none
    | _ => none
  | _ => none

/-- `normalizeOrderDate` from `types.ts`, parameterised by the host date
parser (timezone offset and implementation-defined heuristics, see
`jsLocalDateParts`).  Returns the formatted date and an optional warning. -/
def normalizeOrderDate (tz : Int) (legacy : String → Option DateParts)
    (dateString : String) : String × Option String :=
  if dateString = "" then ("", none)
  else
    let trimmed := jsTrim dateString
    if isTargetFormat trimmed then (trimmed, none)
    else
      match jsLocalDateParts tz legacy trimmed with
      | some p => (formatDateParts p, none)
      | none =>
        match manualSplitDate trimmed with
        | some d => (d, none)
        | none => (trimmed, some ("Unrecognized date format: " ++ trimmed))

/-! ## Data model: orders, rows, the daily queue -/

/-- The `tinting` flag of a line (`"Y" | "N"`). -/
inductive Tint | Y | N
deriving DecidableEq, Repr

/-- A `Row` of a `ProductionOrder` (`types.ts`). -/
structure Row where
  id : String
  product_description_raw : String
  product_description_production : String
  quantity : String
  tinting : Tint
deriving DecidableEq, Repr

/-- `ProductionOrder` (`types.ts`): one extraction result. -/
structure ProductionOrder where
  order : Order
  rows : List Row
  warnings : List String
deriving DecidableEq, Repr

/-- A line entry of a queued order (the element type of
`DailyQueueItem.items`). -/
structure QueueLine where
  line_id : String
  product_description_raw : String
  product_description_production : String
  quantity : String
  tinting : Tint
deriving DecidableEq, Repr

/-- `DailyQueueItem` (`types.ts`). -/
structure DailyQueueItem where
  order_id : String
  created_at_iso : String
  source_filename : String
  order_date : String
  customer_name : String
  order_number : String
  dedupe_key : String
  items : List QueueLine
deriving DecidableEq, Repr

/-- `DailyQueueState` (`types.ts`): the day-scoped queue. -/
structure DailyQueueState where
  day_key : String
  items : List DailyQueueItem
deriving DecidableEq, Repr

/-- The two UI tabs. -/
inductive Tab | extraction | tinting
deriving DecidableEq, Repr

/-- The intake mode (`"pdf" | "text"`), also the source tag of an in-flight
processing item. -/
inductive Intake | pdf | text
deriving DecidableEq, Repr

/-- `'PDF' | 'TEXT'` extraction source. -/
inductive ESource | PDF | TEXT
deriving DecidableEq, Repr

/-- The application state the queue-consistency claims are about: the queue,
the pending-duplicate confirmation slot, the sticky exported flag and the
active tab (React state of the `App` component). -/
structure AppState where
  dailyQueue : DailyQueueState
  pendingDuplicate : Option DailyQueueItem
  isQueueExported : Bool
  activeView : Tab
deriving DecidableEq, Repr

/-- `appendItemToQueue`'s queue update (`App`): a new item arriving on a day
other than `day_key` replaces the whole state; otherwise it is appended at
the end.  `today` is the injected `getTodayKey()` value. -/
def appendItemToQueue (today : String) (q : DailyQueueState)
    (itemToAdd : DailyQueueItem) : DailyQueueState :=
  if q.day_key ≠ today then { day_key := today, items := [itemToAdd] }
  else { q with items := q.items ++ [itemToAdd] }

/-- `appendItemToQueue` as the `App` handler: updates the queue and clears
the exported flag. -/
def appendItemToQueueApp (today : String) (st : AppState)
    (itemToAdd : DailyQueueItem) : AppState :=
  { st with
    dailyQueue := appendItemToQueue today st.dailyQueue itemToAdd
    isQueueExported := false }

/-- The `DailyQueueItem` built by `processNewOrder` from an extraction
result: date normalized first, dedupe key derived from the normalized
order, line ids `<order_id>-L<i+1>`.  `orderId` and `nowIso` are the
injected `generateOrderId()` / `new Date().toISOString()` values; `tz` and
`legacy` parameterise the host date parser. -/
def builtQueueItem (tz : Int) (legacy : String → Option DateParts)
    (orderId nowIso : String) (po : ProductionOrder)
    (source_filename : String) : DailyQueueItem :=
  let normalizedDate := (normalizeOrderDate tz legacy po.order.order_date).1
  let order' := { po.order with order_date := normalizedDate }
  { order_id := orderId
    created_at_iso := nowIso
    source_filename := source_filename
    order_date := normalizedDate
    customer_name := order'.customer_name
    order_number := order'.order_number
    dedupe_key := createDedupeKey order'
    items := po.rows.enum.map (fun p =>
      { line_id := orderId ++ "-L" ++ toString (p.1 + 1)
        product_description_raw := p.2.product_description_raw
        product_description_production := p.2.product_description_production
        quantity := p.2.quantity
        tinting := p.2.tinting }) }

/-- `processNewOrder` (`App`): build the queue item, and either park it in
`pendingDuplicate` (when some queued item already carries the same dedupe
key) or append it; in both cases switch back to the extraction view. -/
def processNewOrder (tz : Int) (legacy : String → Option DateParts)
    (orderId nowIso today : String) (st : AppState) (po : ProductionOrder)
    (source_filename : String) : AppState :=
  let newQueueItem := builtQueueItem tz legacy orderId nowIso po source_filename
  let isDuplicate :=
    st.dailyQueue.items.any (fun item => item.dedupe_key == newQueueItem.dedupe_key)
  if isDuplicate then
    { st with pendingDuplicate := some newQueueItem, activeView := Tab.extraction }
  else
    { appendItemToQueueApp today st newQueueItem with activeView := Tab.extraction }

/-- `handleAddAnyway` (`App`): append the pending duplicate (clearing the
exported flag, as `appendItemToQueue` does) and clear the pending slot. -/
def handleAddAnyway (today : String) (st : AppState) : AppState :=
  match st.pendingDuplicate with
  | some item =>
    { appendItemToQueueApp today st item with pendingDuplicate := none }
  | none => st

/-- `handleRemoveQueueItem` (`App`): filter the item out by id and clear the
exported flag. -/
def handleRemoveQueueItem (st : AppState) (orderId : String) : AppState :=
  { st with
    dailyQueue :=
      { st.dailyQueue with
        items := st.dailyQueue.items.filter (fun item => item.order_id != orderId) }
    isQueueExported := false }

/-- `handleClearQueue`'s state update (`App`): reset `items` to empty,
keeping `day_key`, and clear the exported flag (it also wipes the persisted
session, modelled in `handleClearQueueFull`). -/
def handleClearQueue (st : AppState) : AppState :=
  { st with
    dailyQueue := { st.dailyQueue with items := [] }
    isQueueExported := false }

/-! ## Tinting classifier (`types.ts`) -/

/-- `TINTING_EXCLUDE_KEYWORDS`. -/
def TINTING_EXCLUDE_KEYWORDS : List String :=
  ["thinners", "solvents", "lacquer", "turps", "acetone", "meths", "epoxy",
   "varnish", "2k", "sanding sealer", "aluminium", "aluminum", "silver",
   "primer", "primers", "black", "white", "stoep", "chrome"]

/-- `TINTING_INCLUDE_KEYWORDS`. -/
def TINTING_INCLUDE_KEYWORDS : List String :=
  ["red", "blue", "green", "grey", "gray", "brown", "cream", "yellow",
   "orange", "metallic", "hammertone", "ral"]

/-- `lowerDesc.includes(keyword)`: substring containment after
lowercasing. -/
def containsKeyword (lowerDesc : String) (keyword : String) : Bool :=
  decide (keyword.data <:+: lowerDesc.data)

/-- `isTintable` (`types.ts`): the upstream flag must be `Y`; any exclude
keyword in the lowercased description vetoes; otherwise at least one include
keyword must occur. -/
def isTintable (description : String) (tintingFlag : Tint) : Bool :=
  if tintingFlag ≠ Tint.Y then false
  else
    let lowerDesc := jsToLower description
    if TINTING_EXCLUDE_KEYWORDS.any (fun kw => containsKeyword lowerDesc kw) then false
    else TINTING_INCLUDE_KEYWORDS.any (fun kw => containsKeyword lowerDesc kw)

/-- `TintingListItem` (`types.ts`). -/
structure TintingListItem where
  order_id : String
  line_id : String
  customer_name : String
  order_number : String
  order_date : String
  product_description : String
  quantity : String
deriving DecidableEq, Repr

/-- The entry `filterTintingItems` pushes for a tintable line: identity
fields from the order, the cleaned production description for display. -/
def mkTintingEntry (order : DailyQueueItem) (item : QueueLine) : TintingListItem :=
  { order_id := order.order_id
    line_id := item.line_id
    customer_name := order.customer_name
    order_number := order.order_number
    order_date := order.order_date
    product_description := item.product_description_production
    quantity := item.quantity }

/-- `filterTintingItems` (`types.ts`): for each order and each of its lines,
classify by the raw description and the flag, and emit the display entry. -/
def filterTintingItems (queueItems : List DailyQueueItem) : List TintingListItem :=
  (queueItems.map (fun order =>
    order.items.filterMap (fun item =>
      if isTintable item.product_description_raw item.tinting then
        some (mkTintingEntry order item)
      else none))).flatten

/-! ## Header alignment (`alignDataToHeaders` in `types.ts`) -/

/-- A JavaScript value as it occurs in rows and defaults: a string, a
number, or `undefined` (absent property). -/
inductive Val
  | vStr : String → Val
  | vNum : Int → Val
  | undef : Val
deriving DecidableEq, Repr

/-- Property read `obj[k]` on a string-keyed object (association list in
property order): the first binding, or `undefined`. -/
def getVal (obj : List (String × Val)) (k : String) : Val :=
  match obj.find? (fun p => p.1 == k) with
  | some p => p.2
  | none => Val.undef

/-- Property read on a string-to-string map (`keyMap`), `none` when
absent. -/
def getStr (obj : List (String × String)) (k : String) : Option String :=
  (obj.find? (fun p => p.1 == k)).map (fun p => p.2)

/-- `key.toLowerCase().replace(...)` stripping every character outside
`a-z0-9` — the fuzzy header normalization. -/
def normKey (s : String) : String :=
  ⟨(s.data.map Char.toLower).filter (fun c => c.isLower || c.isDigit)⟩

/-- One cell of `alignDataToHeaders`: the ordered lookup chain for a single
header against a single row.  Steps, in source order: exact defaults match
on the trimmed header; the two hardcoded special cases under their canonical
defaults names; exact `keyMap` match (JavaScript truthiness: an empty-string
mapping is falsy and skipped); fuzzy `keyMap` match; fuzzy match among the
row's own keys; else the empty string. -/
def alignCell (defaults : List (String × Val)) (keyMap : List (String × String))
    (row : List (String × Val)) (header : String) : Val :=
  let key := jsTrim header
  if getVal defaults key ≠ Val.undef then getVal defaults key
  else
    let lowerHeader := normKey key
    if lowerHeader = "datecreated" then getVal defaults "Date Created"
    else if lowerHeader = "batchnumber" then getVal defaults "Batch Number"
    else
      let exactHit := (getStr keyMap key).getD ""
      if exactHit ≠ "" then getVal row exactHit
      else
        match keyMap.find? (fun p => normKey p.1 == lowerHeader) with
        | some p => getVal row p.2
        | none =>
          match row.find? (fun p => normKey p.1 == lowerHeader) with
          | some p => p.2
          | none => Val.vStr ""

/-- `alignDataToHeaders` (`types.ts`): positional rows aligned 1:1 with the
header template. -/
def alignDataToHeaders (data : List (List (String × Val))) (headers : List String)
    (defaults : List (String × Val)) (keyMap : List (String × String)) :
    List (List Val) :=
  data.map (fun row => headers.map (fun header => alignCell defaults keyMap row header))

/-! ## Session persistence (`sessionStore.ts`)

The structured backend (IndexedDB) and the flat fallback (localStorage) are
modelled as two optional slots holding the persisted session value; the
JSON serialization round-trips the plain records involved, so it is the
identity in the model.  Whether the structured backend is available (it can
be disabled by browser privacy settings, the failure mode the fallback
exists for) is the `idbAvailable` flag: when it is `false` both the
structured write and the structured read fail. -/

/-- `PersistedQueueItem.status`. -/
inductive PStatus | queued | processing | done | error
deriving DecidableEq, Repr

/-- `PersistedQueueItem.source`. -/
inductive PSource | upload | dragdrop
deriving DecidableEq, Repr

/-- The `extracted.header` sub-record of a persisted queue item. -/
structure PersistedHeader where
  customer_name : String
  order_number : String
  order_date : String
  dedupe_key : String
deriving DecidableEq, Repr

/-- The `extracted` sub-record of a persisted queue item. -/
structure PersistedExtracted where
  header : PersistedHeader
  lines : List QueueLine
deriving DecidableEq, Repr

/-- `PersistedQueueItem` (`sessionStore.ts`). -/
structure PersistedQueueItem where
  id : String
  filename : String
  source : PSource
  addedAtISO : String
  status : PStatus
  errorMessage : Option String
  extracted : Option PersistedExtracted
  rawText : Option String
deriving DecidableEq, Repr

/-- The `currentExtraction` slot of a persisted session. -/
structure CurrentExtraction where
  data : ProductionOrder
  fileName : String
  source : Option ESource
deriving DecidableEq, Repr

/-- The persisted UI flags. -/
structure UIState where
  activeTab : Tab
  intakeMode : Intake
  isQueueExported : Bool
deriving DecidableEq, Repr

/-- `PersistedSession` (`sessionStore.ts`). -/
structure PersistedSession where
  schemaVersion : Nat
  savedAtISO : String
  queue : List PersistedQueueItem
  currentExtraction : Option CurrentExtraction
  ui : UIState
deriving DecidableEq, Repr

/-- The two storage backends: the structured store (IndexedDB object store
under the fixed key) and the flat key-value fallback (localStorage under the
fixed fallback key). -/
structure Storage where
  idb : Option PersistedSession
  ls : Option PersistedSession
deriving DecidableEq, Repr

/-- An in-flight processing item handed to `saveSession` (raw text captured,
extraction not yet completed). -/
structure ProcessingItem where
  filename : String
  text : String
  source : Intake
deriving DecidableEq, Repr

/-- The session value `saveSession` builds: each queue item as a `done`
persisted record carrying its header and lines, plus (optionally) one
`processing` record holding the raw text of an in-flight extraction.
`nowIso` and `nowMillis` are the injected `new Date().toISOString()` and
`Date.now()` values. -/
def buildPersistedSession (nowIso : String) (nowMillis : Nat)
    (dailyQueue : DailyQueueState) (activeView : Tab) (intakeMode : Intake)
    (isQueueExported : Bool) (extractedData : Option ProductionOrder)
    (fileName : String) (extractionSource : Option ESource)
    (processingItem : Option ProcessingItem) : PersistedSession :=
  let queue : List PersistedQueueItem := dailyQueue.items.map (fun item =>
    { id := item.order_id
      filename := item.source_filename
      source := PSource.upload
      addedAtISO := item.created_at_iso
      status := PStatus.done
      errorMessage := none
      extracted := some
        { header :=
            { customer_name := item.customer_name
              order_number := item.order_number
              order_date := item.order_date
              dedupe_key := item.dedupe_key }
          lines := item.items }
      rawText := none })
  let queue := match processingItem with
    | some p =>
      queue ++ [{ id := "pending-" ++ toString nowMillis
                  filename := p.filename
                  source := if p.source = Intake.pdf then PSource.upload else PSource.dragdrop
                  addedAtISO := nowIso
                  status := PStatus.processing
                  errorMessage := none
                  extracted := none
                  rawText := some p.text }]
    | none => queue
  { schemaVersion := 1
    savedAtISO := nowIso
    queue := queue
    currentExtraction := extractedData.map (fun d =>
      { data := d, fileName := fileName, source := extractionSource })
    ui := { activeTab := activeView, intakeMode := intakeMode,
            isQueueExported := isQueueExported } }

/-- `saveSession` (`sessionStore.ts`): try the structured store (a failure is
logged and swallowed), then unconditionally mirror the same snapshot to the
flat fallback. -/
def saveSession (idbAvailable : Bool) (nowIso : String) (nowMillis : Nat)
    (dailyQueue : DailyQueueState) (activeView : Tab) (intakeMode : Intake)
    (isQueueExported : Bool) (extractedData : Option ProductionOrder)
    (fileName : String) (extractionSource : Option ESource)
    (processingItem : Option ProcessingItem) (st : Storage) : Storage :=
  let session := buildPersistedSession nowIso nowMillis dailyQueue activeView
    intakeMode isQueueExported extractedData fileName extractionSource processingItem
  let st := if idbAvailable then { st with idb := some session } else st
  { st with ls := some session }

/-- The value `loadSession` returns on success. -/
structure LoadResult where
  dailyQueue : DailyQueueState
  ui : UIState
  currentExtraction : Option CurrentExtraction
  restoredProcessingItem : Option (String × String)
deriving DecidableEq, Repr

/-- Reconstruct a `DailyQueueItem` from a `done` persisted record. -/
def restoreQueueItem (p : PersistedQueueItem) (e : PersistedExtracted) :
    DailyQueueItem :=
  { order_id := p.id
    created_at_iso := p.addedAtISO
    source_filename := p.filename
    order_date := e.header.order_date
    customer_name := e.header.customer_name
    order_number := e.header.order_number
    dedupe_key := e.header.dedupe_key
    items := e.lines }

/-- `loadSession` (`sessionStore.ts`): read the structured store; fall back
to the flat store when that fails or holds nothing; rebuild the queue from
the `done` records, recover the raw text of the last in-flight record, and
derive `day_key` from the snapshot's save timestamp (the date part of the
ISO string), not from the current date. -/
def loadSession (idbAvailable : Bool) (st : Storage) : Option LoadResult :=
  let fromIdb := if idbAvailable then st.idb else none
  let session := match fromIdb with
    | some s => some s
    | none => st.ls
  match session with
  | none => none
  | some session =>
    let items : List DailyQueueItem := session.queue.filterMap (fun p =>
      match p.status, p.extracted with
      | PStatus.done, some e => some (restoreQueueItem p e)
      | _, _ => none)
    let restoredProcessingItem : Option (String × String) :=
      session.queue.foldl (fun acc p =>
        if (p.status = PStatus.processing ∨ p.status = PStatus.queued) then
          match p.rawText with
          | some t => some (p.filename, t)
          | none => acc
        else acc) none
    let day_key : String := ⟨session.savedAtISO.data.take 10⟩
    some { dailyQueue := { day_key := day_key, items := items }
           ui := session.ui
           currentExtraction := session.currentExtraction
           restoredProcessingItem := restoredProcessingItem }

/-- `clearSession` (`sessionStore.ts`): delete from the structured store
(failure swallowed) and remove the flat fallback. -/
def clearSessionStore (idbAvailable : Bool) (st : Storage) : Storage :=
  let st := if idbAvailable then { st with idb := none } else st
  { st with ls := none }

/-- `handleClearQueue` (`App`) together with its persistence wipe. -/
def handleClearQueueFull (idbAvailable : Bool) (st : AppState) (store : Storage) :
    AppState × Storage :=
  (handleClearQueue st, clearSessionStore idbAvailable store)

/-! # Theorems -/

/-! ## Claim C2: day rollover fires only on append -/

/-- **C2.** Appending on a different arrival day replaces the whole state
with just the new item; appending on the same day appends at the end;
removal (in particular with an absent id) and clearing never change
`day_key` and never discard other items. -/
theorem claim_C2 :
    (∀ (today : String) (q : DailyQueueState) (item : DailyQueueItem),
      q.day_key ≠ today →
      appendItemToQueue today q item = { day_key := today, items := [item] }) ∧
    (∀ (today : String) (q : DailyQueueState) (item : DailyQueueItem),
      q.day_key = today →
      appendItemToQueue today q item
        = { day_key := q.day_key, items := q.items ++ [item] }) ∧
    (∀ (st : AppState) (orderId : String),
      (handleRemoveQueueItem st orderId).dailyQueue.day_key
        = st.dailyQueue.day_key) ∧
    (∀ (st : AppState) (orderId : String),
      (∀ it ∈ st.dailyQueue.items, it.order_id ≠ orderId) →
      (handleRemoveQueueItem st orderId).dailyQueue.items
        = st.dailyQueue.items) ∧
    (∀ (idbAvailable : Bool) (st : AppState) (store : Storage),
      (handleClearQueueFull idbAvailable st store).1.dailyQueue.day_key
        = st.dailyQueue.day_key) := by
  refine ⟨?_, ?_, ?_, ?_, ?_⟩
  · intro today q item h
    simp [appendItemToQueue, h]
  · intro today q item h
    simp [appendItemToQueue, h]
  · intro st orderId
    simp [handleRemoveQueueItem]
  · intro st orderId h
    simp only [handleRemoveQueueItem]
    exact List.filter_eq_self.mpr (fun it hit => by
      simpa [bne_iff_ne] using h it hit)
  · intro idbAvailable st store
    simp [handleClearQueueFull, handleClearQueue]

/-- Witness for C2 at concrete inputs: a rollover append, a same-day append,
a removal by an absent id, and a clear. -/
theorem claim_C2_witness :
    (("2024-01-01" : String) ≠ "2024-01-02" ∧
      appendItemToQueue "2024-01-02"
          { day_key := "2024-01-01",
            items := [⟨"PO-A", "t0", "a.pdf", "01/01/2024", "acme", "1", "k1", []⟩] }
          ⟨"PO-B", "t1", "b.pdf", "02/01/2024", "acme", "2", "k2", []⟩
        = { day_key := "2024-01-02",
            items := [⟨"PO-B", "t1", "b.pdf", "02/01/2024", "acme", "2", "k2", []⟩] }) ∧
    appendItemToQueue "2024-01-01"
        { day_key := "2024-01-01",
          items := [⟨"PO-A", "t0", "a.pdf", "01/01/2024", "acme", "1", "k1", []⟩] }
        ⟨"PO-B", "t1", "b.pdf", "01/01/2024", "acme", "2", "k2", []⟩
      = { day_key := "2024-01-01",
          items := [⟨"PO-A", "t0", "a.pdf", "01/01/2024", "acme", "1", "k1", []⟩,
                    ⟨"PO-B", "t1", "b.pdf", "01/01/2024", "acme", "2", "k2", []⟩] } ∧
    (handleRemoveQueueItem
        ⟨{ day_key := "2024-01-01",
           items := [⟨"PO-A", "t0", "a.pdf", "01/01/2024", "acme", "1", "k1", []⟩] },
         none, true, Tab.extraction⟩ "PO-MISSING").dailyQueue.items
      = [⟨"PO-A", "t0", "a.pdf", "01/01/2024", "acme", "1", "k1", []⟩] ∧
    (handleClearQueueFull false
        ⟨{ day_key := "2024-01-01", items := [] }, none, false, Tab.extraction⟩
        ⟨none, none⟩).1.dailyQueue.day_key = "2024-01-01" := by
  refine ⟨⟨by decide, claim_C2.1 _ _ _ (by decide)⟩, ?_, ?_, ?_⟩
  · exact claim_C2.2.1 _ _ _ (by decide)
  · exact claim_C2.2.2.2.1 _ _ (by decide)
  · exact claim_C2.2.2.2.2 _ _ _

/-! ## Claim C1: duplicate submissions require explicit confirmation -/

/-- **C1.** When the newly built queue item's dedupe key matches the key of
some item already in the queue, `processNewOrder` never appends: it leaves
the queue unchanged and parks the new item in the pending-duplicate slot;
only `handleAddAnyway` then appends it (on the same day, at the end of the
unchanged items). -/
theorem claim_C1 :
    (∀ (tz : Int) (legacy : String → Option DateParts)
        (orderId nowIso today : String) (st : AppState) (po : ProductionOrder)
        (fname : String),
      (st.dailyQueue.items.any (fun item =>
        item.dedupe_key
          == (builtQueueItem tz legacy orderId nowIso po fname).dedupe_key)) = true →
      (processNewOrder tz legacy orderId nowIso today st po fname).dailyQueue
          = st.dailyQueue ∧
        (processNewOrder tz legacy orderId nowIso today st po fname).pendingDuplicate
          = some (builtQueueItem tz legacy orderId nowIso po fname)) ∧
    (∀ (tz : Int) (legacy : String → Option DateParts)
        (orderId nowIso today : String) (st : AppState) (po : ProductionOrder)
        (fname : String),
      (st.dailyQueue.items.any (fun item =>
        item.dedupe_key
          == (builtQueueItem tz legacy orderId nowIso po fname).dedupe_key)) = true →
      st.dailyQueue.day_key = today →
      (handleAddAnyway today
          (processNewOrder tz legacy orderId nowIso today st po fname)).dailyQueue.items
        = st.dailyQueue.items
            ++ [builtQueueItem tz legacy orderId nowIso po fname]) := by
  constructor
  · intro tz legacy orderId nowIso today st po fname hdup
    constructor <;> simp [processNewOrder, hdup]
  · intro tz legacy orderId nowIso today st po fname hdup hday
    simp [processNewOrder, hdup, handleAddAnyway, appendItemToQueueApp,
      appendItemToQueue, hday]

/-- Witness for C1, end to end: two orders with identical
customer/order-number/date but different line items; the second submission
is parked as a pending duplicate (queue still length 1), and confirming
"add anyway" yields a queue of length 2. -/
theorem claim_C1_witness :
    ((processNewOrder 0 (fun _ => none) "PO-B" "t2" "2024-01-05"
        (processNewOrder 0 (fun _ => none) "PO-A" "t1" "2024-01-05"
          ⟨⟨"2024-01-05", []⟩, none, false, Tab.extraction⟩
          ⟨⟨"02/01/2024", "ACME", "PO-9"⟩,
            [⟨"1", "Signal Red Enamel", "Signal Red", "5", Tint.Y⟩], []⟩ "a.pdf")
        ⟨⟨"02/01/2024", "ACME", "PO-9"⟩,
          [⟨"1", "Roof Green", "Roof Green", "2", Tint.Y⟩], []⟩
        "b.pdf").dailyQueue.items.length = 1) ∧
    ((handleAddAnyway "2024-01-05"
        (processNewOrder 0 (fun _ => none) "PO-B" "t2" "2024-01-05"
          (processNewOrder 0 (fun _ => none) "PO-A" "t1" "2024-01-05"
            ⟨⟨"2024-01-05", []⟩, none, false, Tab.extraction⟩
            ⟨⟨"02/01/2024", "ACME", "PO-9"⟩,
              [⟨"1", "Signal Red Enamel", "Signal Red", "5", Tint.Y⟩], []⟩ "a.pdf")
          ⟨⟨"02/01/2024", "ACME", "PO-9"⟩,
            [⟨"1", "Roof Green", "Roof Green", "2", Tint.Y⟩], []⟩
          "b.pdf")).dailyQueue.items.length = 2) := by
  have h2 := claim_C1.2 0 (fun _ => none) "PO-B" "t2" "2024-01-05"
    (processNewOrder 0 (fun _ => none) "PO-A" "t1" "2024-01-05"
      ⟨⟨"2024-01-05", []⟩, none, false, Tab.extraction⟩
      ⟨⟨"02/01/2024", "ACME", "PO-9"⟩,
        [⟨"1", "Signal Red Enamel", "Signal Red", "5", Tint.Y⟩], []⟩ "a.pdf")
    ⟨⟨"02/01/2024", "ACME", "PO-9"⟩,
      [⟨"1", "Roof Green", "Roof Green", "2", Tint.Y⟩], []⟩
    "b.pdf" (by decide) (by decide)
  have h1 := claim_C1.1 0 (fun _ => none) "PO-B" "t2" "2024-01-05"
    (processNewOrder 0 (fun _ => none) "PO-A" "t1" "2024-01-05"
      ⟨⟨"2024-01-05", []⟩, none, false, Tab.extraction⟩
      ⟨⟨"02/01/2024", "ACME", "PO-9"⟩,
        [⟨"1", "Signal Red Enamel", "Signal Red", "5", Tint.Y⟩], []⟩ "a.pdf")
    ⟨⟨"02/01/2024", "ACME", "PO-9"⟩,
      [⟨"1", "Roof Green", "Roof Green", "2", Tint.Y⟩], []⟩
    "b.pdf" (by decide)
  refine ⟨?_, ?_⟩
  · rw [h1.1]; decide
  · rw [h2]; decide

/-! ## Claims C3 and C4: header alignment -/

/-- **C3.** A header matched by none of the lookup steps (no exact defaults
entry, neither special case, no exact or fuzzy `keyMap` entry, no fuzzy row
key) produces the empty string — an unmapped column never fails the export
or yields a non-string placeholder. -/
theorem claim_C3 :
    ∀ (defaults : List (String × Val)) (keyMap : List (String × String))
      (row : List (String × Val)) (header : String),
    getVal defaults (jsTrim header) = Val.undef →
    normKey (jsTrim header) ≠ "datecreated" →
    normKey (jsTrim header) ≠ "batchnumber" →
    (∀ p ∈ keyMap, normKey p.1 ≠ normKey (jsTrim header)) →
    (∀ p ∈ row, normKey p.1 ≠ normKey (jsTrim header)) →
    alignCell defaults keyMap row header = Val.vStr "" ∧
      ∀ (data : List (List (String × Val))) (headers : List String),
        alignDataToHeaders data headers defaults keyMap
          = data.map (fun r => headers.map (fun h => alignCell defaults keyMap r h)) := by
  intro defaults keyMap row header h1 h2 h3 h4 h5
  refine ⟨?_, fun _ _ => rfl⟩
  have hkmExact : keyMap.find? (fun p => p.1 == jsTrim header) = none := by
    rw [List.find?_eq_none]
    intro p hp
    simp only [beq_iff_eq]
    intro hcontra
    exact h4 p hp (by rw [hcontra])
  have hkmFuzzy : keyMap.find? (fun p => normKey p.1 == normKey (jsTrim header)) = none := by
    rw [List.find?_eq_none]
    intro p hp
    simpa using h4 p hp
  have hrowFuzzy : row.find? (fun p => normKey p.1 == normKey (jsTrim header)) = none := by
    rw [List.find?_eq_none]
    intro p hp
    simpa using h5 p hp
  simp [alignCell, h1, h2, h3, getStr, hkmExact, hkmFuzzy, hrowFuzzy]

/-- Witness for C3: a header that matches nothing aligns to `""`. -/
theorem claim_C3_witness :
    (getVal [] (jsTrim "BAR BAZ") = Val.undef ∧
      normKey (jsTrim "BAR BAZ") ≠ "datecreated" ∧
      normKey (jsTrim "BAR BAZ") ≠ "batchnumber" ∧
      (∀ p ∈ ([] : List (String × String)), normKey p.1 ≠ normKey (jsTrim "BAR BAZ")) ∧
      (∀ p ∈ [(("foo" : String), Val.vStr "x")], normKey p.1 ≠ normKey (jsTrim "BAR BAZ"))) ∧
    alignCell [] [] [("foo", Val.vStr "x")] "BAR BAZ" = Val.vStr "" := by
  refine ⟨⟨by decide, by decide, by decide, by decide, by decide⟩, ?_⟩
  exact (claim_C3 [] [] [("foo", Val.vStr "x")] "BAR BAZ" (by decide) (by decide)
    (by decide) (by decide) (by decide)).1

/-- **C4.** An exact defaults entry for the trimmed header always wins, even
when the row carries a field of the same name; on the spec's example the
aligned output is `[[7, "Red Enamel"]]`. -/
theorem claim_C4 :
    (∀ (defaults : List (String × Val)) (keyMap : List (String × String))
        (row : List (String × Val)) (header : String),
      getVal defaults (jsTrim header) ≠ Val.undef →
      alignCell defaults keyMap row header = getVal defaults (jsTrim header)) ∧
    alignDataToHeaders [[("product_description", Val.vStr "Red Enamel")]]
        ["BATCH NUMBER", "PRODUCT_DESCRIPTION"] [("BATCH NUMBER", Val.vNum 7)]
        [("PRODUCT_DESCRIPTION", "product_description")]
      = [[Val.vNum 7, Val.vStr "Red Enamel"]] := by
  constructor
  · intro defaults keyMap row header h
    simp [alignCell, h]
  · decide

/-- Witness for C4: the default for `BATCH NUMBER` wins over a row field of
the very same name. -/
theorem claim_C4_witness :
    getVal [(("BATCH NUMBER" : String), Val.vNum 7)] (jsTrim "BATCH NUMBER") ≠ Val.undef ∧
    alignCell [("BATCH NUMBER", Val.vNum 7)] [("PRODUCT_DESCRIPTION", "product_description")]
        [("BATCH NUMBER", Val.vStr "99")] "BATCH NUMBER"
      = getVal [("BATCH NUMBER", Val.vNum 7)] (jsTrim "BATCH NUMBER") := by
  exact ⟨by decide, claim_C4.1 _ _ _ _ (by decide)⟩

/-! ## Claim C5: session persistence round trip -/

/-- Rebuilding each persisted `done` record recovers the original queue item
(the persisted record carries every field), and the in-flight record, when
present, is not a `done` record — so a save/load pair reproduces exactly the
original items. -/
theorem restore_persisted_queue (nowIso : String) (nowMillis : Nat)
    (dailyQueue : DailyQueueState) (activeView : Tab) (intakeMode : Intake)
    (isQueueExported : Bool) (extractedData : Option ProductionOrder)
    (fileName : String) (extractionSource : Option ESource)
    (processingItem : Option ProcessingItem) :
    ((buildPersistedSession nowIso nowMillis dailyQueue activeView intakeMode
        isQueueExported extractedData fileName extractionSource
        processingItem).queue.filterMap (fun p =>
      match p.status, p.extracted with
      | PStatus.done, some e => some (restoreQueueItem p e)
      | _, _ => none)) = dailyQueue.items := by
  have heta : (fun (x : DailyQueueItem) =>
      some { order_id := x.order_id, created_at_iso := x.created_at_iso,
             source_filename := x.source_filename, order_date := x.order_date,
             customer_name := x.customer_name, order_number := x.order_number,
             dedupe_key := x.dedupe_key, items := x.items : DailyQueueItem })
      = fun x => some x := rfl
  cases processingItem <;>
    simp [buildPersistedSession, List.filterMap_append, List.filterMap_map,
      Function.comp_def, restoreQueueItem, heta]

/-- Witness lemma for the saved session reaching the loader: whichever
backend serves the read, it holds the session just saved. -/
theorem loadSession_after_save (idbAvailable : Bool) (nowIso : String)
    (nowMillis : Nat) (dailyQueue : DailyQueueState) (activeView : Tab)
    (intakeMode : Intake) (isQueueExported : Bool)
    (extractedData : Option ProductionOrder) (fileName : String)
    (extractionSource : Option ESource) (processingItem : Option ProcessingItem)
    (st : Storage) :
    loadSession idbAvailable
        (saveSession idbAvailable nowIso nowMillis dailyQueue activeView
          intakeMode isQueueExported extractedData fileName extractionSource
          processingItem st)
      = (let session := buildPersistedSession nowIso nowMillis dailyQueue
            activeView intakeMode isQueueExported extractedData fileName
            extractionSource processingItem
         some { dailyQueue :=
                  { day_key := ⟨session.savedAtISO.data.take 10⟩
                    items := session.queue.filterMap (fun p =>
                      match p.status, p.extracted with
                      | PStatus.done, some e => some (restoreQueueItem p e)
                      | _, _ => none) }
                ui := session.ui
                currentExtraction := session.currentExtraction
                restoredProcessingItem := session.queue.foldl (fun acc p =>
                  if (p.status = PStatus.processing ∨ p.status = PStatus.queued) then
                    match p.rawText with
                    | some t => some (p.filename, t)
                    | none => acc
                  else acc) none }) := by
  cases idbAvailable <;> simp [saveSession, loadSession]

/-- **C5.** Saving a session and loading it back yields a queue with exactly
the original items (same order, ids, timestamps, filenames, header fields,
dedupe keys and line entries) — both when the structured backend works and
when it fails on both write and read (`idbAvailable = false`), because every
save also mirrors the snapshot to the flat fallback and the load falls back
to it. -/
theorem claim_C5 (idbAvailable : Bool) (nowIso : String) (nowMillis : Nat)
    (dailyQueue : DailyQueueState) (activeView : Tab) (intakeMode : Intake)
    (isQueueExported : Bool) (extractedData : Option ProductionOrder)
    (fileName : String) (extractionSource : Option ESource)
    (processingItem : Option ProcessingItem) (st : Storage) :
    ∃ r : LoadResult,
      loadSession idbAvailable
          (saveSession idbAvailable nowIso nowMillis dailyQueue activeView
            intakeMode isQueueExported extractedData fileName extractionSource
            processingItem st)
        = some r ∧
      r.dailyQueue.items = dailyQueue.items ∧
      (saveSession idbAvailable nowIso nowMillis dailyQueue activeView
          intakeMode isQueueExported extractedData fileName extractionSource
          processingItem st).ls
        = some (buildPersistedSession nowIso nowMillis dailyQueue activeView
            intakeMode isQueueExported extractedData fileName extractionSource
            processingItem) := by
  rw [loadSession_after_save]
  refine ⟨_, rfl, ?_, ?_⟩
  · exact restore_persisted_queue nowIso nowMillis dailyQueue activeView
      intakeMode isQueueExported extractedData fileName extractionSource
      processingItem
  · cases idbAvailable <;> simp [saveSession]

/-! ## Claim C10: tinting projection classifies raw, displays production -/

/-- **C10.** Every entry of the tinting list comes from some queued line; it
is classified by `isTintable` on the line's raw description while carrying
the cleaned production description for display; consequently the line's
flag is `Y`, no exclude keyword occurs in its lowercased raw description,
and at least one include keyword does. -/
theorem claim_C10 (queueItems : List DailyQueueItem) (entry : TintingListItem)
    (h : entry ∈ filterTintingItems queueItems) :
    ∃ order, order ∈ queueItems ∧ ∃ line, line ∈ order.items ∧
      entry = mkTintingEntry order line ∧
      entry.product_description = line.product_description_production ∧
      isTintable line.product_description_raw line.tinting = true ∧
      line.tinting = Tint.Y ∧
      (∀ kw ∈ TINTING_EXCLUDE_KEYWORDS,
        ¬ kw.data <:+: (jsToLower line.product_description_raw).data) ∧
      (∃ kw ∈ TINTING_INCLUDE_KEYWORDS,
        kw.data <:+: (jsToLower line.product_description_raw).data) := by
  simp only [filterTintingItems, List.mem_flatten, List.mem_map] at h
  obtain ⟨_, ⟨order, horder, rfl⟩, hentry⟩ := h
  rw [List.mem_filterMap] at hentry
  obtain ⟨line, hline, hsome⟩ := hentry
  by_cases htint : isTintable line.product_description_raw line.tinting = true
  · rw [if_pos htint] at hsome
    obtain rfl := Option.some.inj hsome
    refine ⟨order, horder, line, hline, rfl, rfl, htint, ?_, ?_, ?_⟩
    · by_contra hN
      simp [isTintable, hN] at htint
    · intro kw hkw
      have hY : line.tinting = Tint.Y := by
        by_contra hN
        simp [isTintable, hN] at htint
      simp only [isTintable, hY, ne_eq, not_true_eq_false, if_false,
        reduceIte] at htint
      rcases hex : TINTING_EXCLUDE_KEYWORDS.any
          (fun k => containsKeyword (jsToLower line.product_description_raw) k) with _ | _
      · have := List.any_eq_false.mp hex kw hkw
        simpa [containsKeyword] using this
      · rw [hex] at htint
        simp at htint
    · have hY : line.tinting = Tint.Y := by
        by_contra hN
        simp [isTintable, hN] at htint
      simp only [isTintable, hY, ne_eq, not_true_eq_false, if_false,
        reduceIte] at htint
      rcases hex : TINTING_EXCLUDE_KEYWORDS.any
          (fun k => containsKeyword (jsToLower line.product_description_raw) k) with _ | _
      · rw [hex] at htint
        simp only [Bool.false_eq_true, if_false, reduceIte] at htint
        obtain ⟨kw, hkw, hc⟩ := List.any_eq_true.mp htint
        exact ⟨kw, hkw, by simpa [containsKeyword] using hc⟩
      · rw [hex] at htint
        simp at htint
  · rw [if_neg htint] at hsome
    exact absurd hsome (by simp)

/-- Witness for C10: a queue with one tintable and one excluded line yields
the tintable entry, and the theorem recovers its provenance. -/
theorem claim_C10_witness :
    ((⟨"PO-1", "PO-1-L1", "cust", "num", "01/01/2024", "Signal Red", "5"⟩ :
        TintingListItem)
      ∈ filterTintingItems
          [⟨"PO-1", "t", "f", "01/01/2024", "cust", "num", "k",
            [⟨"PO-1-L1", "Signal Red Enamel", "Signal Red", "5", Tint.Y⟩,
             ⟨"PO-1-L2", "Aluminium Primer", "Aluminium Primer", "1", Tint.Y⟩]⟩]) ∧
    (∃ order, order ∈
        [(⟨"PO-1", "t", "f", "01/01/2024", "cust", "num", "k",
            [⟨"PO-1-L1", "Signal Red Enamel", "Signal Red", "5", Tint.Y⟩,
             ⟨"PO-1-L2", "Aluminium Primer", "Aluminium Primer", "1", Tint.Y⟩]⟩ :
            DailyQueueItem)] ∧
      ∃ line, line ∈ order.items ∧
        (⟨"PO-1", "PO-1-L1", "cust", "num", "01/01/2024", "Signal Red", "5"⟩ :
            TintingListItem) = mkTintingEntry order line ∧
        (⟨"PO-1", "PO-1-L1", "cust", "num", "01/01/2024", "Signal Red", "5"⟩ :
            TintingListItem).product_description
          = line.product_description_production ∧
        isTintable line.product_description_raw line.tinting = true ∧
        line.tinting = Tint.Y ∧
        (∀ kw ∈ TINTING_EXCLUDE_KEYWORDS,
          ¬ kw.data <:+: (jsToLower line.product_description_raw).data) ∧
        (∃ kw ∈ TINTING_INCLUDE_KEYWORDS,
          kw.data <:+: (jsToLower line.product_description_raw).data)) := by
  refine ⟨by decide, claim_C10 _ _ (by decide)⟩

/-! ## Claim C8: `normalizeOrderDate` is the identity on `dd/MM/yyyy` -/

/-- Decimal digits are not JavaScript whitespace. -/
theorem digit_not_space (c : Char) (h : c.isDigit = true) : jsIsSpace c = false := by
  by_contra hcon
  have hsp : jsIsSpace c = true := by
    cases hx : jsIsSpace c
    · exact absurd hx hcon
    · rfl
  rw [jsIsSpace] at hsp
  simp only [Bool.or_eq_true, beq_iff_eq] at hsp
  rcases hsp with ((((rfl | rfl) | rfl) | rfl) | rfl) | rfl <;> exact absurd h (by decide)

/-- A list whose first and last characters are not whitespace is untouched
by `trim`. -/
theorem trimChars_eq_self (l : List Char)
    (hhead : ∀ c, l.head? = some c → jsIsSpace c = false)
    (hlast : ∀ c, l.getLast? = some c → jsIsSpace c = false) :
    trimChars l = l := by
  have hdrop : ∀ (m : List Char), (∀ c, m.head? = some c → jsIsSpace c = false) →
      m.dropWhile jsIsSpace = m := by
    intro m hm
    cases m with
    | nil => rfl
    | cons c t =>
      rw [List.dropWhile_cons_of_neg]
      simp [hm c rfl]
  unfold trimChars
  rw [hdrop l hhead]
  rw [hdrop l.reverse (fun c hc => hlast c (by simpa using hc))]
  exact List.reverse_reverse l

/-- **C8.** `normalizeOrderDate` is the identity (and emits no warning) on
every string already in `dd/MM/yyyy` shape, for every host parser and
timezone. -/
theorem claim_C8 (tz : Int) (legacy : String → Option DateParts) (s : String)
    (h : isTargetFormat s = true) :
    normalizeOrderDate tz legacy s = (s, none) := by
  unfold isTargetFormat at h
  split at h
  case h_2 => exact absurd h (by simp)
  case h_1 d1 d2 s1 d3 d4 s2 y1 y2 y3 y4 heq =>
    simp only [Bool.and_eq_true, beq_iff_eq] at h
    obtain ⟨⟨⟨⟨⟨⟨⟨⟨⟨hd1, hd2⟩, hs1⟩, hd3⟩, hd4⟩, hs2⟩, hy1⟩, hy2⟩, hy3⟩, hy4⟩ := h
    have hne : s ≠ "" := by
      intro hcon
      rw [hcon] at heq
      exact absurd heq (by simp)
    have htrim : jsTrim s = s := by
      have : trimChars s.data = s.data := by
        rw [heq]
        refine trimChars_eq_self _ ?_ ?_
        · intro c hc
          simp only [List.head?] at hc
          obtain rfl := Option.some.inj hc
          exact digit_not_space _ hd1
        · intro c hc
          simp only [List.getLast?] at hc
          obtain rfl := Option.some.inj hc
          exact digit_not_space _ hy4
      show String.mk (trimChars s.data) = s
      rw [this]
    have htf : isTargetFormat s = true := by
      unfold isTargetFormat
      rw [heq]
      simp [hd1, hd2, hs1, hd3, hd4, hs2, hy1, hy2, hy3, hy4]
    simp [normalizeOrderDate, hne, htrim, htf]

/-- Witness for C8 at `25/12/2024`. -/
theorem claim_C8_witness :
    isTargetFormat "25/12/2024" = true ∧
      normalizeOrderDate 0 (fun _ => none) "25/12/2024" = ("25/12/2024", none) :=
  ⟨by decide, claim_C8 0 (fun _ => none) "25/12/2024" (by decide)⟩

/-! ## Claim C7: unparseable input is preserved with a warning

As stated the claim fails on two edges: every returned date is trimmed
first, so an unparseable input with surrounding whitespace is not returned
verbatim; and the empty string (falsy in JavaScript) short-circuits with no
warning at all.  The amended claim returns the trimmed input. -/

/-- Counterexample to C7 as stated: `"  not a date  "` fails every strategy
(the host parser rejects it: `new Date("not a date")` is an invalid date in
every engine) yet the result is the trimmed string, not the original
verbatim; and the empty string yields no warning. -/
theorem claim_C7_counterexample :
    (normalizeOrderDate 0 (fun _ => none) "  not a date  ").1 = "not a date" ∧
    "not a date" ≠ "  not a date  " ∧
    normalizeOrderDate 0 (fun _ => none) "" = ("", none) := by
  refine ⟨by decide, by decide, by decide⟩

/-- **C7 (amended).** For every non-empty input on which every parsing
strategy fails — not in `dd/MM/yyyy` shape, rejected by the host date
parser, and not a valid three-part manual split — `normalizeOrderDate`
returns the trimmed input together with a non-empty warning naming it. -/
theorem claim_C7 (tz : Int) (legacy : String → Option DateParts) (s : String)
    (hne : s ≠ "")
    (htf : isTargetFormat (jsTrim s) = false)
    (hhost : jsLocalDateParts tz legacy (jsTrim s) = none)
    (hmanual : manualSplitDate (jsTrim s) = none) :
    normalizeOrderDate tz legacy s
        = (jsTrim s, some ("Unrecognized date format: " ++ jsTrim s)) ∧
      ("Unrecognized date format: " ++ jsTrim s) ≠ "" := by
  constructor
  · simp [normalizeOrderDate, hne, htf, hhost, hmanual]
  · intro hcon
    have : ("Unrecognized date format: " ++ jsTrim s).data = [] := by
      rw [hcon]
    rw [String.data_append] at this
    exact absurd (List.append_eq_nil.mp this).1 (by decide)

/-- Witness for C7 at `"not a date"` (on which the real host parser indeed
fails). -/
theorem claim_C7_witness :
    (("not a date" : String) ≠ "" ∧
      isTargetFormat (jsTrim "not a date") = false ∧
      jsLocalDateParts 0 (fun _ => none) (jsTrim "not a date") = none ∧
      manualSplitDate (jsTrim "not a date") = none) ∧
    normalizeOrderDate 0 (fun _ => none) "not a date"
        = (jsTrim "not a date",
            some ("Unrecognized date format: " ++ jsTrim "not a date")) ∧
      ("Unrecognized date format: " ++ jsTrim "not a date") ≠ "" := by
  exact ⟨⟨by decide, by decide, by decide, by decide⟩,
    claim_C7 0 (fun _ => none) "not a date" (by decide) (by decide) (by decide)
      (by decide)⟩

/-! ## Claim C9: the dedupe key machinery

`normalize` is characterised by the whitespace-separated words of the
lowercased string: `(normalize s).data = joinWords (wordsLower s)`, and
`joinWords` is injective on lists of non-empty space-free words.  Together
with the unique decomposition of `a ++ sep :: rest` for `sep`-free `a`,
this settles when two dedupe keys collide. -/

/-- Unique decomposition at the first occurrence of a separator: if `c`
occurs in neither `a` nor `d`, then `a ++ c :: r = d ++ c :: r'` forces the
components to agree. -/
theorem sep_cons_append_inj (c : Char) :
    ∀ (a d r r' : List Char), c ∉ a → c ∉ d →
      a ++ c :: r = d ++ c :: r' → a = d ∧ r = r' := by
  intro a
  induction a with
  | nil =>
    intro d r r' _ hd heq
    cases d with
    | nil => simpa using heq
    | cons x xs =>
      simp only [List.nil_append, List.cons_append, List.cons.injEq] at heq
      exact absurd (heq.1 ▸ List.mem_cons_self x xs) (heq.1 ▸ hd)
  | cons x xs ih =>
    intro d r r' ha hd heq
    cases d with
    | nil =>
      simp only [List.cons_append, List.nil_append, List.cons.injEq] at heq
      exact absurd (heq.1 ▸ List.mem_cons_self x xs) (heq.1 ▸ ha)
    | cons y ys =>
      simp only [List.cons_append, List.cons.injEq] at heq
      obtain ⟨rfl, heq⟩ := heq
      obtain ⟨h1, h2⟩ := ih ys r r' (fun h => ha (List.mem_cons_of_mem _ h))
        (fun h => hd (List.mem_cons_of_mem _ h)) heq
      exact ⟨by rw [h1], h2⟩

/-- Splitting ignores an all-whitespace tail. -/
theorem splitWordsAux_all_space (sp : List Char)
    (hsp : ∀ x ∈ sp, jsIsSpace x = true) (acc : List Char) :
    splitWordsAux acc sp = splitWordsAux acc [] := by
  induction sp generalizing acc with
  | nil => rfl
  | cons s t ih =>
    have hs : jsIsSpace s = true := hsp s (List.mem_cons_self s t)
    have ht : ∀ x ∈ t, jsIsSpace x = true := fun x hx => hsp x (List.mem_cons_of_mem _ hx)
    cases hacc : acc.isEmpty with
    | true =>
      obtain rfl : acc = [] := List.isEmpty_iff.mp hacc
      simp only [splitWordsAux, hs, if_true, List.isEmpty_nil]
      rw [ih ht []]
      rfl
    | false =>
      simp only [splitWordsAux, hs, if_true, hacc]
      rw [ih ht []]
      simp [splitWordsAux]

/-- Appending an all-whitespace suffix does not change the words. -/
theorem splitWordsAux_append_space (l : List Char) (sp : List Char)
    (hsp : ∀ x ∈ sp, jsIsSpace x = true) :
    ∀ acc, splitWordsAux acc (l ++ sp) = splitWordsAux acc l := by
  induction l with
  | nil =>
    intro acc
    exact splitWordsAux_all_space sp hsp acc
  | cons c t ih =>
    intro acc
    by_cases hc : jsIsSpace c <;> by_cases hacc : acc.isEmpty <;>
      simp only [List.cons_append, splitWordsAux, hc, hacc, if_true, if_false,
        List.append_eq] <;>
      simp only [ih]

/-- Dropping leading whitespace does not change the words. -/
theorem wordsOf_dropWhile (l : List Char) :
    wordsOf (l.dropWhile jsIsSpace) = wordsOf l := by
  induction l with
  | nil => rfl
  | cons c t ih =>
    by_cases hc : jsIsSpace c
    · rw [List.dropWhile_cons_of_pos hc]
      rw [ih]
      simp [wordsOf, splitWordsAux, hc]
    · rw [List.dropWhile_cons_of_neg hc]

/-- Trimming does not change the words. -/
theorem wordsOf_trimChars (l : List Char) : wordsOf (trimChars l) = wordsOf l := by
  unfold trimChars
  set m := l.dropWhile jsIsSpace with hm
  have hdecomp : m = ((m.reverse.dropWhile jsIsSpace).reverse)
      ++ (m.reverse.takeWhile jsIsSpace).reverse := by
    have h : m.reverse.takeWhile jsIsSpace ++ m.reverse.dropWhile jsIsSpace = m.reverse :=
      List.takeWhile_append_dropWhile jsIsSpace m.reverse
    conv_lhs => rw [← List.reverse_reverse m, ← h]
    rw [List.reverse_append]
  have hsp : ∀ x ∈ (m.reverse.takeWhile jsIsSpace).reverse, jsIsSpace x = true := by
    intro x hx
    exact List.mem_takeWhile_imp (List.mem_reverse.mp hx)
  calc wordsOf (m.reverse.dropWhile jsIsSpace).reverse
      = wordsOf ((m.reverse.dropWhile jsIsSpace).reverse
          ++ (m.reverse.takeWhile jsIsSpace).reverse) :=
        (splitWordsAux_append_space _ _ hsp []).symm
    _ = wordsOf m := by rw [← hdecomp]
    _ = wordsOf l := wordsOf_dropWhile l

/-- A run of non-space characters passes through `collapseWs` unchanged and
resets the in-run flag. -/
theorem collapseWs_nonspace_run (w : List Char)
    (hw : ∀ x ∈ w, jsIsSpace x = false) (hne : w ≠ []) (b : Bool) (r : List Char) :
    collapseWs b (w ++ r) = w ++ collapseWs false r := by
  induction w generalizing b with
  | nil => exact absurd rfl hne
  | cons c t ih =>
    have hc : jsIsSpace c = false := hw c (List.mem_cons_self c t)
    have ht : ∀ x ∈ t, jsIsSpace x = false := fun x hx => hw x (List.mem_cons_of_mem _ hx)
    cases t with
    | nil => simp [collapseWs, hc]
    | cons d u =>
      simp only [List.cons_append, collapseWs, hc, if_false, Bool.false_eq_true,
        List.cons.injEq, true_and]
      exact ih ht (by simp) false

/-- A run of non-space characters is accumulated verbatim by the splitter. -/
theorem splitWordsAux_nonspace_run (w : List Char)
    (hw : ∀ x ∈ w, jsIsSpace x = false) :
    ∀ acc r, splitWordsAux acc (w ++ r) = splitWordsAux (w.reverse ++ acc) r := by
  induction w with
  | nil => intro acc r; rfl
  | cons c t ih =>
    intro acc r
    have hc : jsIsSpace c = false := hw c (List.mem_cons_self c t)
    have ht : ∀ x ∈ t, jsIsSpace x = false := fun x hx => hw x (List.mem_cons_of_mem _ hx)
    simp only [List.cons_append, splitWordsAux, hc, Bool.false_eq_true, if_false,
      List.append_eq]
    rw [ih ht (c :: acc) r]
    simp

/-- Inside a whitespace run, further whitespace is absorbed. -/
theorem collapseWs_space_run (sp : List Char)
    (hsp : ∀ x ∈ sp, jsIsSpace x = true) (r : List Char) :
    collapseWs true (sp ++ r) = collapseWs true r := by
  induction sp with
  | nil => rfl
  | cons s t ih =>
    have hs : jsIsSpace s = true := hsp s (List.mem_cons_self s t)
    simp only [List.cons_append, collapseWs, hs, if_true]
    exact ih (fun x hx => hsp x (List.mem_cons_of_mem _ hx))

/-- After a whitespace run, a non-space head makes the flag irrelevant. -/
theorem collapseWs_true_eq_false (r : List Char)
    (h : ∀ c, r.head? = some c → jsIsSpace c = false) :
    collapseWs true r = collapseWs false r := by
  cases r with
  | nil => rfl
  | cons c t =>
    have hc : jsIsSpace c = false := h c rfl
    simp [collapseWs, hc]

/-- With an empty accumulator, leading whitespace is skipped by the
splitter. -/
theorem splitWordsAux_space_run (sp : List Char)
    (hsp : ∀ x ∈ sp, jsIsSpace x = true) (r : List Char) :
    splitWordsAux [] (sp ++ r) = splitWordsAux [] r := by
  induction sp with
  | nil => rfl
  | cons s t ih =>
    have hs : jsIsSpace s = true := hsp s (List.mem_cons_self s t)
    simp only [List.cons_append, splitWordsAux, hs, if_true, List.isEmpty_nil]
    exact ih (fun x hx => hsp x (List.mem_cons_of_mem _ hx))

/-- A non-empty accumulator always produces at least one word. -/
theorem splitWordsAux_acc_ne_nil (l : List Char) :
    ∀ acc, acc ≠ [] → splitWordsAux acc l ≠ [] := by
  induction l with
  | nil =>
    intro acc hacc
    have : acc.isEmpty = false := by
      cases acc
      · exact absurd rfl hacc
      · rfl
    simp [splitWordsAux, this]
  | cons c t ih =>
    intro acc hacc
    have : acc.isEmpty = false := by
      cases acc
      · exact absurd rfl hacc
      · rfl
    by_cases hc : jsIsSpace c
    · simp [splitWordsAux, hc, this]
    · simp only [splitWordsAux, hc, Bool.false_eq_true, if_false]
      exact ih (c :: acc) (by simp)

/-- A list with a non-space head has at least one word. -/
theorem wordsOf_ne_nil (c : Char) (t : List Char) (hc : jsIsSpace c = false) :
    wordsOf (c :: t) ≠ [] := by
  simp only [wordsOf, splitWordsAux, hc, Bool.false_eq_true, if_false]
  exact splitWordsAux_acc_ne_nil t [c] (by simp)

/-- `joinWords` on a cons with a non-empty tail. -/
theorem joinWords_cons (w : List Char) (ws : List (List Char)) (h : ws ≠ []) :
    joinWords (w :: ws) = w ++ ' ' :: joinWords ws := by
  cases ws with
  | nil => exact absurd rfl h
  | cons v vs => rfl

/-- The head of a `dropWhile` residue fails the predicate. -/
theorem dropWhile_head (p : Char → Bool) :
    ∀ (l : List Char) (c : Char) (t : List Char),
      l.dropWhile p = c :: t → p c = false := by
  intro l
  induction l with
  | nil => intro c t h; simp at h
  | cons x xs ih =>
    intro c t h
    rw [List.dropWhile_cons] at h
    split at h
    · exact ih c t h
    · next hx =>
      obtain ⟨rfl, -⟩ := List.cons.injEq x xs c t ▸ h
      simpa using hx

/-- The last element of a list is a member. -/
theorem getLast?_mem_self : ∀ (l : List Char) (a : Char), l.getLast? = some a → a ∈ l := by
  intro l
  induction l with
  | nil => intro a h; simp at h
  | cons x xs ih =>
    intro a h
    cases xs with
    | nil =>
      simp only [List.getLast?_singleton, Option.some.injEq] at h
      simp [h]
    | cons y ys =>
      rw [List.getLast?_cons_cons] at h
      exact List.mem_cons_of_mem x (ih a h)

/-- Strings with equal character lists are equal. -/
theorem string_eq_of_data (s t : String) (h : s.data = t.data) : s = t := by
  cases s; cases t; exact congrArg String.mk (by simpa using h)

/-- On a list whose first and last characters are not whitespace, collapsing
whitespace runs is exactly joining the whitespace-separated words with
single spaces (fuel induction on the length). -/
theorem collapse_eq_join_aux :
    ∀ (n : Nat) (l : List Char), l.length ≤ n →
      (∀ c, l.head? = some c → jsIsSpace c = false) →
      (∀ c, l.getLast? = some c → jsIsSpace c = false) →
      collapseWs false l = joinWords (wordsOf l) := by
  intro n
  induction n with
  | zero =>
    intro l hlen _ _
    obtain rfl : l = [] := List.length_eq_zero.mp (Nat.le_zero.mp hlen)
    rfl
  | succ n ih =>
    intro l hlen hhead hlast
    cases l with
    | nil => rfl
    | cons c t =>
    have hc : jsIsSpace c = false := hhead c rfl
    set w := (c :: t).takeWhile (fun x => !jsIsSpace x) with hwdef
    set r := (c :: t).dropWhile (fun x => !jsIsSpace x) with hrdef
    have hwr : w ++ r = c :: t := List.takeWhile_append_dropWhile _ _
    have hwns : ∀ x ∈ w, jsIsSpace x = false := by
      intro x hx
      simpa using List.mem_takeWhile_imp hx
    have hwne : w ≠ [] := by
      rw [hwdef, List.takeWhile_cons]
      simp [hc]
    cases hrr : r with
    | nil =>
      have hlw : c :: t = w := by rw [← hwr, hrr, List.append_nil]
      rw [hlw]
      have hLHS : collapseWs false w = w := by
        have h0 := collapseWs_nonspace_run w hwns hwne false []
        rw [List.append_nil] at h0
        simpa [collapseWs] using h0
      have hRHS : wordsOf w = [w] := by
        unfold wordsOf
        have h0 := splitWordsAux_nonspace_run w hwns [] []
        rw [List.append_nil, List.append_nil] at h0
        rw [h0]
        have hrev : w.reverse.isEmpty = false := by
          cases hww : w with
          | nil => exact absurd hww hwne
          | cons a u => simp [hww]
        simp [splitWordsAux, hrev]
      rw [hLHS, hRHS]
      rfl
    | cons s r' =>
      have hs : jsIsSpace s = true := by
        have h0 := dropWhile_head (fun x => !jsIsSpace x) (c :: t) s r'
          (by rw [← hrdef]; exact hrr)
        simpa using h0
      have hrne : r ≠ [] := by rw [hrr]; simp
      have hlastr : ∀ x, r.getLast? = some x → jsIsSpace x = false := by
        intro x hx
        refine hlast x ?_
        rw [← hwr, List.getLast?_append_of_ne_nil w hrne]
        exact hx
      set sp := r'.takeWhile jsIsSpace with hspdef
      set m := r'.dropWhile jsIsSpace with hmdef
      have hspm : sp ++ m = r' := List.takeWhile_append_dropWhile _ _
      have hsps : ∀ x ∈ sp, jsIsSpace x = true := fun x hx => List.mem_takeWhile_imp hx
      have hmhead : ∀ x u, m = x :: u → jsIsSpace x = false := by
        intro x u hxu
        exact dropWhile_head jsIsSpace r' x u (by rw [← hmdef]; exact hxu)
      have hmne : m ≠ [] := by
        intro hm0
        have hrsp : r = s :: sp := by
          rw [hrr, ← hspm, hm0, List.append_nil]
        have hall : ∀ x ∈ r, jsIsSpace x = true := by
          rw [hrsp]
          intro x hx
          rcases List.mem_cons.mp hx with rfl | hx
          · exact hs
          · exact hsps x hx
        cases hlx : r.getLast? with
        | none =>
          rw [List.getLast?_eq_none_iff] at hlx
          exact hrne hlx
        | some x =>
          have hxmem : x ∈ r := getLast?_mem_self r x hlx
          have := hall x hxmem
          rw [hlastr x hlx] at this
          exact Bool.false_ne_true this
      have hr'ne : r' ≠ [] := by
        intro h0
        rw [h0] at hspm
        exact hmne (List.append_eq_nil.mp hspm).2
      have hmhead? : ∀ x, m.head? = some x → jsIsSpace x = false := by
        intro x hx
        cases hmm : m with
        | nil => rw [hmm] at hx; simp at hx
        | cons a u =>
          rw [hmm] at hx
          have hax : a = x := by simpa using hx
          rw [← hax]
          exact hmhead a u hmm
      have hmlast : ∀ x, m.getLast? = some x → jsIsSpace x = false := by
        have hgl : m.getLast? = r.getLast? := by
          rw [hrr, show (s :: r') = [s] ++ r' from rfl,
            List.getLast?_append_of_ne_nil [s] hr'ne, ← hspm,
            List.getLast?_append_of_ne_nil sp hmne]
        intro x hx
        exact hlastr x (by rw [← hgl]; exact hx)
      have hmlen : m.length ≤ n := by
        have h1 : (c :: t).length = w.length + r.length := by
          rw [← hwr, List.length_append]
        have h2 : r.length = r'.length + 1 := by rw [hrr]; simp
        have h3 : r'.length = sp.length + m.length := by
          rw [← hspm, List.length_append]
        have h4 : 1 ≤ w.length := by
          cases hww : w with
          | nil => exact absurd hww hwne
          | cons a u => simp [hww]
        have h5 : (c :: t).length ≤ n + 1 := hlen
        omega
      have hIH := ih m hmlen hmhead? hmlast
      have hL : collapseWs false (c :: t) = w ++ ' ' :: collapseWs false m := by
        rw [← hwr, collapseWs_nonspace_run w hwns hwne false, hrr]
        have h1 : collapseWs false (s :: r') = ' ' :: collapseWs true r' := by
          simp [collapseWs, hs]
        rw [h1, ← hspm, collapseWs_space_run sp hsps m,
          collapseWs_true_eq_false m hmhead?]
      have hR : wordsOf (c :: t) = w :: wordsOf m := by
        unfold wordsOf
        rw [← hwr, splitWordsAux_nonspace_run w hwns [] r, List.append_nil, hrr]
        have hrev : w.reverse.isEmpty = false := by
          cases hww : w with
          | nil => exact absurd hww hwne
          | cons a u => simp [hww]
        simp only [splitWordsAux, hs, if_true, hrev, Bool.false_eq_true, if_false]
        rw [List.reverse_reverse, ← hspm, splitWordsAux_space_run sp hsps m]
      have hwm : wordsOf m ≠ [] := by
        cases hmm : m with
        | nil => exact absurd hmm hmne
        | cons a u =>
          rw [← hmm]
          rw [hmm]
          exact wordsOf_ne_nil a u (hmhead a u hmm)
      rw [hL, hR, hIH, joinWords_cons w (wordsOf m) hwm]

/-- Trim-then-collapse equals joining the words. -/
theorem collapse_trim_eq_join (l : List Char) :
    collapseWs false (trimChars l) = joinWords (wordsOf l) := by
  rw [← wordsOf_trimChars l]
  refine collapse_eq_join_aux (trimChars l).length (trimChars l) le_rfl ?_ ?_
  · intro c hc
    cases htc : trimChars l with
    | nil => rw [htc] at hc; simp at hc
    | cons a u =>
      rw [htc] at hc
      have hac : a = c := by simpa using hc
      -- `trimChars l` is a prefix of `l.dropWhile jsIsSpace`, whose head
      -- fails the whitespace predicate.
      have hdecomp : l.dropWhile jsIsSpace
          = trimChars l ++ ((l.dropWhile jsIsSpace).reverse.takeWhile jsIsSpace).reverse := by
        unfold trimChars
        conv_lhs => rw [← List.reverse_reverse (l.dropWhile jsIsSpace),
          ← List.takeWhile_append_dropWhile jsIsSpace (l.dropWhile jsIsSpace).reverse]
        rw [List.reverse_append]
      have hhd : ∃ tail, l.dropWhile jsIsSpace = a :: tail := by
        refine ⟨u ++ ((l.dropWhile jsIsSpace).reverse.takeWhile jsIsSpace).reverse, ?_⟩
        conv_lhs => rw [hdecomp]
        rw [htc]
        rfl
      obtain ⟨tail, hhd⟩ := hhd
      have := dropWhile_head jsIsSpace l a tail hhd
      rw [← hac]
      exact this
  · intro c hc
    have hrev : (trimChars l).getLast?
        = ((l.dropWhile jsIsSpace).reverse.dropWhile jsIsSpace).head? := by
      unfold trimChars
      exact List.getLast?_reverse _
    rw [hrev] at hc
    cases hdw : (l.dropWhile jsIsSpace).reverse.dropWhile jsIsSpace with
    | nil => rw [hdw] at hc; simp at hc
    | cons a u =>
      rw [hdw] at hc
      have hac : a = c := by simpa using hc
      have := dropWhile_head jsIsSpace (l.dropWhile jsIsSpace).reverse a u hdw
      rw [← hac]
      exact this

/-- The characters of `normalize s` are the single-space join of the
lowercased words. -/
theorem normalize_data (s : String) :
    (normalize s).data = joinWords (wordsLower s) := by
  show collapseWs false (trimChars (s.data.map Char.toLower)) = _
  exact collapse_trim_eq_join _

/-- Every produced word is non-empty and whitespace-free. -/
theorem splitWordsAux_wellformed :
    ∀ (l acc : List Char), (∀ c ∈ acc, jsIsSpace c = false) →
      ∀ w ∈ splitWordsAux acc l, w ≠ [] ∧ ∀ c ∈ w, jsIsSpace c = false := by
  intro l
  induction l with
  | nil =>
    intro acc hacc w hw
    cases hacc' : acc.isEmpty with
    | true =>
      obtain rfl : acc = [] := List.isEmpty_iff.mp hacc'
      simp [splitWordsAux] at hw
    | false =>
      have : acc ≠ [] := by
        intro h0
        rw [h0] at hacc'
        simp at hacc'
      simp only [splitWordsAux, hacc', Bool.false_eq_true, if_false,
        List.mem_singleton] at hw
      subst hw
      exact ⟨by simpa using this, fun c hc => hacc c (List.mem_reverse.mp hc)⟩
  | cons c t ih =>
    intro acc hacc w hw
    by_cases hc : jsIsSpace c
    · cases hacc' : acc.isEmpty with
      | true =>
        obtain rfl : acc = [] := List.isEmpty_iff.mp hacc'
        simp only [splitWordsAux, hc, if_true, List.isEmpty_nil] at hw
        exact ih [] (by simp) w hw
      | false =>
        have haccne : acc ≠ [] := by
          intro h0
          rw [h0] at hacc'
          simp at hacc'
        simp only [splitWordsAux, hc, if_true, hacc', Bool.false_eq_true,
          if_false, List.mem_cons] at hw
        rcases hw with rfl | hw
        · exact ⟨by simpa using haccne, fun x hx => hacc x (List.mem_reverse.mp hx)⟩
        · exact ih [] (by simp) w hw
    · have hc' : jsIsSpace c = false := by simpa using hc
      simp only [splitWordsAux, hc', Bool.false_eq_true, if_false] at hw
      refine ih (c :: acc) ?_ w hw
      intro x hx
      rcases List.mem_cons.mp hx with rfl | hx
      · exact hc'
      · exact hacc x hx

/-- `joinWords` is injective on lists of non-empty whitespace-free words. -/
theorem joinWords_inj :
    ∀ ws₁ ws₂ : List (List Char),
      (∀ w ∈ ws₁, w ≠ [] ∧ ∀ c ∈ w, jsIsSpace c = false) →
      (∀ w ∈ ws₂, w ≠ [] ∧ ∀ c ∈ w, jsIsSpace c = false) →
      joinWords ws₁ = joinWords ws₂ → ws₁ = ws₂ := by
  have hnosp : ∀ (w : List Char), (∀ c ∈ w, jsIsSpace c = false) → (' ' : Char) ∉ w := by
    intro w hw hsp
    have := hw ' ' hsp
    exact absurd this (by decide)
  intro ws₁
  induction ws₁ with
  | nil =>
    intro ws₂ _ h2 heq
    cases ws₂ with
    | nil => rfl
    | cons v vs =>
      exfalso
      cases vs with
      | nil =>
        have : ([] : List Char) = v := heq
        exact (h2 v (List.mem_cons_self v [])).1 this.symm
      | cons v2 vs2 =>
        have : ([] : List Char) = v ++ ' ' :: joinWords (v2 :: vs2) := heq
        simp at this
  | cons w ws ih =>
    intro ws₂ h1 h2 heq
    cases ws₂ with
    | nil =>
      exfalso
      cases ws with
      | nil =>
        have : w = ([] : List Char) := heq
        exact (h1 w (List.mem_cons_self w [])).1 this
      | cons w2 ws2 =>
        have : w ++ ' ' :: joinWords (w2 :: ws2) = ([] : List Char) := heq
        simp at this
    | cons v vs =>
      cases ws with
      | nil =>
        cases vs with
        | nil =>
          have : w = v := heq
          rw [this]
        | cons v2 vs2 =>
          exfalso
          have hw : w = v ++ ' ' :: joinWords (v2 :: vs2) := heq
          have hsp : (' ' : Char) ∈ w := by
            rw [hw]
            exact List.mem_append_right v (List.mem_cons_self _ _)
          exact hnosp w (h1 w (List.mem_cons_self _ _)).2 hsp
      | cons w2 ws2 =>
        cases vs with
        | nil =>
          exfalso
          have hv : w ++ ' ' :: joinWords (w2 :: ws2) = v := heq
          have hsp : (' ' : Char) ∈ v := by
            rw [← hv]
            exact List.mem_append_right w (List.mem_cons_self _ _)
          exact hnosp v (h2 v (List.mem_cons_self _ _)).2 hsp
        | cons v2 vs2 =>
          have heq' : w ++ ' ' :: joinWords (w2 :: ws2)
              = v ++ ' ' :: joinWords (v2 :: vs2) := heq
          obtain ⟨rfl, heq2⟩ := sep_cons_append_inj ' ' w v _ _
            (hnosp w (h1 w (List.mem_cons_self _ _)).2)
            (hnosp v (h2 v (List.mem_cons_self _ _)).2) heq'
          have := ih (v2 :: vs2)
            (fun u hu => h1 u (List.mem_cons_of_mem w hu))
            (fun u hu => h2 u (List.mem_cons_of_mem w hu)) heq2
          rw [this]

/-- Two strings normalize identically exactly when their lowercased word
sequences agree: `normalize` forgets exactly case and whitespace layout. -/
theorem normalize_eq_iff (s t : String) :
    normalize s = normalize t ↔ wordsLower s = wordsLower t := by
  constructor
  · intro h
    have hd : (normalize s).data = (normalize t).data := by rw [h]
    rw [normalize_data, normalize_data] at hd
    exact joinWords_inj _ _
      (splitWordsAux_wellformed _ [] (by simp))
      (splitWordsAux_wellformed _ [] (by simp)) hd
  · intro h
    refine string_eq_of_data _ _ ?_
    rw [normalize_data, normalize_data, h]

/-- The characters of a dedupe key, written with the two separators
explicit. -/
theorem dedupeKey_data (o : Order) :
    (createDedupeKey o).data
      = (normalize o.customer_name).data
          ++ '|' :: ((normalize o.order_number).data
          ++ '|' :: (normalize o.order_date).data) := by
  simp [createDedupeKey, String.data_append]

/-- Counterexample to C9 as stated: the separator `|` is not stripped by
normalization, so two orders whose fields differ can still collide —
customer `a|b` with number `c` against customer `a` with number `b|c`
produce the same key although the normalized customer names differ. -/
theorem claim_C9_counterexample :
    createDedupeKey ⟨"1", "a|b", "c"⟩ = createDedupeKey ⟨"1", "a", "b|c"⟩ ∧
      normalize "a|b" ≠ normalize "a" ∧
      wordsLower "a|b" ≠ wordsLower "a" := by
  refine ⟨by decide, by decide, by decide⟩

/-- **C9 (amended).** Provided the normalized customer names and order
numbers contain no `|` (the separator, never stripped by normalization —
the spec's accepted design limitation), two orders produce identical dedupe
keys **iff** all three fields agree after normalization, i.e. iff each pair
of fields differs only in letter case and leading/trailing/internal
whitespace (equal lowercased word sequences). -/
theorem claim_C9 (o₁ o₂ : Order)
    (h1 : ('|' : Char) ∉ (normalize o₁.customer_name).data)
    (h2 : ('|' : Char) ∉ (normalize o₂.customer_name).data)
    (h3 : ('|' : Char) ∉ (normalize o₁.order_number).data)
    (h4 : ('|' : Char) ∉ (normalize o₂.order_number).data) :
    createDedupeKey o₁ = createDedupeKey o₂ ↔
      (wordsLower o₁.customer_name = wordsLower o₂.customer_name ∧
       wordsLower o₁.order_number = wordsLower o₂.order_number ∧
       wordsLower o₁.order_date = wordsLower o₂.order_date) := by
  constructor
  · intro h
    have hd : (createDedupeKey o₁).data = (createDedupeKey o₂).data := by rw [h]
    rw [dedupeKey_data o₁, dedupeKey_data o₂] at hd
    obtain ⟨e1, hd2⟩ := sep_cons_append_inj '|' _ _ _ _ h1 h2 hd
    obtain ⟨e2, e3⟩ := sep_cons_append_inj '|' _ _ _ _ h3 h4 hd2
    exact ⟨(normalize_eq_iff _ _).mp (string_eq_of_data _ _ e1),
      (normalize_eq_iff _ _).mp (string_eq_of_data _ _ e2),
      (normalize_eq_iff _ _).mp (string_eq_of_data _ _ e3)⟩
  · rintro ⟨hc, hn, hd⟩
    have c1 := (normalize_eq_iff o₁.customer_name o₂.customer_name).mpr hc
    have c2 := (normalize_eq_iff o₁.order_number o₂.order_number).mpr hn
    have c3 := (normalize_eq_iff o₁.order_date o₂.order_date).mpr hd
    rw [createDedupeKey, createDedupeKey, c1, c2, c3]

/-- Witness for C9: two orders differing only in case and whitespace (and
pipe-free) produce identical keys via the theorem. -/
theorem claim_C9_witness :
    (('|' : Char) ∉ (normalize (Order.mk "12 Jan 2024" "ACME  Corp" "PO-1").customer_name).data ∧
      ('|' : Char) ∉ (normalize (Order.mk " 12  jan 2024" "acme corp " "po-1").customer_name).data ∧
      ('|' : Char) ∉ (normalize (Order.mk "12 Jan 2024" "ACME  Corp" "PO-1").order_number).data ∧
      ('|' : Char) ∉ (normalize (Order.mk " 12  jan 2024" "acme corp " "po-1").order_number).data) ∧
    createDedupeKey (Order.mk "12 Jan 2024" "ACME  Corp" "PO-1")
      = createDedupeKey (Order.mk " 12  jan 2024" "acme corp " "po-1") := by
  refine ⟨⟨by decide, by decide, by decide, by decide⟩, ?_⟩
  exact (claim_C9 (Order.mk "12 Jan 2024" "ACME  Corp" "PO-1")
    (Order.mk " 12  jan 2024" "acme corp " "po-1")
    (by decide) (by decide) (by decide) (by decide)).mpr
    ⟨by decide, by decide, by decide⟩

/-! ## Claim C6: `yyyy-mm-dd` and `dd-mm-yyyy` inputs -/

/-- Digits are not date separators. -/
theorem digit_not_sep (c : Char) (h : c.isDigit = true) : isDateSep c = false := by
  by_contra hcon
  have hsep : isDateSep c = true := by
    cases hx : isDateSep c
    · exact absurd hx hcon
    · rfl
  rw [isDateSep] at hsep
  simp only [Bool.or_eq_true, beq_iff_eq] at hsep
  rcases hsep with rfl | rfl <;> exact absurd h (by decide)

/-- Unique decomposition at the first non-digit: two all-digit prefixes
followed by non-digit characters must agree. -/
theorem append_first_non_digit :
    ∀ (a b r r' : List Char) (x y : Char),
      (∀ c ∈ a, c.isDigit = true) → (∀ c ∈ b, c.isDigit = true) →
      x.isDigit = false → y.isDigit = false →
      a ++ x :: r = b ++ y :: r' → a = b ∧ x = y ∧ r = r' := by
  intro a
  induction a with
  | nil =>
    intro b r r' x y _ hb hx _ heq
    cases b with
    | nil => simpa using heq
    | cons z zs =>
      simp only [List.nil_append, List.cons_append, List.cons.injEq] at heq
      have : z.isDigit = true := hb z (List.mem_cons_self z zs)
      rw [← heq.1] at this
      rw [hx] at this
      exact absurd this (by simp)
  | cons u us ih =>
    intro b r r' x y ha hb hx hy heq
    cases b with
    | nil =>
      simp only [List.cons_append, List.nil_append, List.cons.injEq] at heq
      have : u.isDigit = true := ha u (List.mem_cons_self u us)
      rw [heq.1, hy] at this
      exact absurd this (by simp)
    | cons z zs =>
      simp only [List.cons_append, List.cons.injEq] at heq
      obtain ⟨rfl, heq⟩ := heq
      obtain ⟨e1, e2, e3⟩ := ih zs r r' x y
        (fun c hc => ha c (List.mem_cons_of_mem _ hc))
        (fun c hc => hb c (List.mem_cons_of_mem _ hc)) hx hy heq
      exact ⟨by rw [e1], e2, e3⟩

/-- Splitting a separator-free chunk followed by a separator peels off the
chunk. -/
theorem splitOnSeps_append (w : List Char) (hw : ∀ x ∈ w, isDateSep x = false)
    (c : Char) (hc : isDateSep c = true) (rest : List Char) :
    splitOnSeps (w ++ c :: rest) = w :: splitOnSeps rest := by
  induction w with
  | nil => simp [splitOnSeps, hc]
  | cons a t ih =>
    have ha : isDateSep a = false := hw a (List.mem_cons_self a t)
    have ht : ∀ x ∈ t, isDateSep x = false := fun x hx => hw x (List.mem_cons_of_mem _ hx)
    simp only [List.cons_append, splitOnSeps, ha, Bool.false_eq_true, if_false,
      List.append_eq]
    rw [ih ht]

/-- A separator-free list is a single segment. -/
theorem splitOnSeps_no_sep (l : List Char) (hl : ∀ x ∈ l, isDateSep x = false) :
    splitOnSeps l = [l] := by
  induction l with
  | nil => rfl
  | cons a t ih =>
    have ha : isDateSep a = false := hl a (List.mem_cons_self a t)
    have ht : ∀ x ∈ t, isDateSep x = false := fun x hx => hl x (List.mem_cons_of_mem _ hx)
    simp only [splitOnSeps, ha, Bool.false_eq_true, if_false]
    rw [ih ht]

/-- `takeWhile` keeps a list all of whose elements satisfy the predicate. -/
theorem takeWhile_all (p : Char → Bool) :
    ∀ (l : List Char), (∀ x ∈ l, p x = true) → l.takeWhile p = l := by
  intro l
  induction l with
  | nil => intro _; rfl
  | cons a t ih =>
    intro h
    rw [List.takeWhile_cons, if_pos (h a (List.mem_cons_self a t))]
    rw [ih (fun x hx => h x (List.mem_cons_of_mem _ hx))]

/-- `parseInt` on a non-empty all-digit string yields its decimal value. -/
theorem jsParseInt_all_digits (l : List Char) (hne : l ≠ [])
    (hdig : ∀ c ∈ l, c.isDigit = true) :
    jsParseInt ⟨l⟩ = some ((digitsToNat l : Int)) := by
  cases l with
  | nil => exact absurd rfl hne
  | cons a t =>
    have ha : a.isDigit = true := hdig a (List.mem_cons_self a t)
    have hsp : jsIsSpace a = false := digit_not_space a ha
    have hdrop : (a :: t).dropWhile jsIsSpace = a :: t :=
      List.dropWhile_cons_of_neg (by simp [hsp])
    have hnotminus : ¬ a = '-' := by
      intro h
      rw [h] at ha
      exact absurd ha (by decide)
    have hnotplus : ¬ a = '+' := by
      intro h
      rw [h] at ha
      exact absurd ha (by decide)
    show jsParseInt (String.mk (a :: t)) = _
    unfold jsParseInt
    simp only [hdrop]
    rw [if_neg hnotminus, if_neg hnotplus]
    unfold takeDigits
    rw [takeWhile_all Char.isDigit (a :: t) hdig]
    simp

/-- The manual three-part split on `p1 sep p2 sep p3` (non-empty all-digit
parts, valid ranges) accepts, reading the parts as `yyyy-mm-dd` when the
first has four digits and as `dd-mm-yyyy` otherwise. -/
theorem manualSplitDate_parts (p1 p2 p3 : List Char) (c1 c2 : Char) (d m y : Nat)
    (hc1 : c1 = '-' ∨ c1 = '/') (hc2 : c2 = '-' ∨ c2 = '/')
    (hp1 : p1 ≠ []) (hp2 : p2 ≠ []) (hp3 : p3 ≠ [])
    (hdg1 : ∀ c ∈ p1, c.isDigit = true) (hdg2 : ∀ c ∈ p2, c.isDigit = true)
    (hdg3 : ∀ c ∈ p3, c.isDigit = true)
    (hassign : (p1.length = 4 ∧ y = digitsToNat p1 ∧ m = digitsToNat p2 ∧ d = digitsToNat p3)
      ∨ (p1.length ≠ 4 ∧ d = digitsToNat p1 ∧ m = digitsToNat p2 ∧ y = digitsToNat p3))
    (hd : 1 ≤ d ∧ d ≤ 31) (hm : 1 ≤ m ∧ m ≤ 12) (hy : 1900 < y ∧ y < 2100) :
    manualSplitDate ⟨p1 ++ c1 :: (p2 ++ c2 :: p3)⟩
      = some (pad2 (d : Int) ++ "/" ++ pad2 (m : Int) ++ "/" ++ toString (y : Int)) := by
  have hsep1 : isDateSep c1 = true := by rcases hc1 with rfl | rfl <;> decide
  have hsep2 : isDateSep c2 = true := by rcases hc2 with rfl | rfl <;> decide
  have hns1 : ∀ x ∈ p1, isDateSep x = false := fun x hx => digit_not_sep x (hdg1 x hx)
  have hns2 : ∀ x ∈ p2, isDateSep x = false := fun x hx => digit_not_sep x (hdg2 x hx)
  have hns3 : ∀ x ∈ p3, isDateSep x = false := fun x hx => digit_not_sep x (hdg3 x hx)
  have hsplit : splitDateSeps ⟨p1 ++ c1 :: (p2 ++ c2 :: p3)⟩ = [⟨p1⟩, ⟨p2⟩, ⟨p3⟩] := by
    unfold splitDateSeps
    show (splitOnSeps (p1 ++ c1 :: (p2 ++ c2 :: p3))).map _ = _
    rw [splitOnSeps_append p1 hns1 c1 hsep1,
      splitOnSeps_append p2 hns2 c2 hsep2,
      splitOnSeps_no_sep p3 hns3]
    rfl
  unfold manualSplitDate
  simp only [hsplit]
  rcases hassign with ⟨hlen4, hy', hm', hd'⟩ | ⟨hlen4, hd', hm', hy'⟩
  · subst hy' hm' hd'
    have hif : ((⟨p1⟩ : String).length = 4) := hlen4
    rw [if_pos hif, jsParseInt_all_digits p1 hp1 hdg1,
      jsParseInt_all_digits p2 hp2 hdg2, jsParseInt_all_digits p3 hp3 hdg3]
    have hcond : (0 < ((digitsToNat p3 : Nat) : Int)
        && ((digitsToNat p3 : Nat) : Int) ≤ 31
        && 0 < ((digitsToNat p2 : Nat) : Int)
        && ((digitsToNat p2 : Nat) : Int) ≤ 12
        && 1900 < ((digitsToNat p1 : Nat) : Int)
        && ((digitsToNat p1 : Nat) : Int) < 2100) = true := by
      simp only [Bool.and_eq_true, decide_eq_true_eq]
      refine ⟨⟨⟨⟨⟨?_, ?_⟩, ?_⟩, ?_⟩, ?_⟩, ?_⟩
      · exact_mod_cast hd.1
      · exact_mod_cast hd.2
      · exact_mod_cast hm.1
      · exact_mod_cast hm.2
      · exact_mod_cast hy.1
      · exact_mod_cast hy.2
    simp only [hcond, if_true]
  · subst hy' hm' hd'
    have hif : ¬ ((⟨p1⟩ : String).length = 4) := hlen4
    rw [if_neg hif, jsParseInt_all_digits p1 hp1 hdg1,
      jsParseInt_all_digits p2 hp2 hdg2, jsParseInt_all_digits p3 hp3 hdg3]
    have hcond : (0 < ((digitsToNat p1 : Nat) : Int)
        && ((digitsToNat p1 : Nat) : Int) ≤ 31
        && 0 < ((digitsToNat p2 : Nat) : Int)
        && ((digitsToNat p2 : Nat) : Int) ≤ 12
        && 1900 < ((digitsToNat p3 : Nat) : Int)
        && ((digitsToNat p3 : Nat) : Int) < 2100) = true := by
      simp only [Bool.and_eq_true, decide_eq_true_eq]
      refine ⟨⟨⟨⟨⟨?_, ?_⟩, ?_⟩, ?_⟩, ?_⟩, ?_⟩
      · exact_mod_cast hd.1
      · exact_mod_cast hd.2
      · exact_mod_cast hm.1
      · exact_mod_cast hm.2
      · exact_mod_cast hy.1
      · exact_mod_cast hy.2
    simp only [hcond, if_true]

/-- Counterexample to C6 as stated: `"2024-01-02"` is a conforming ISO
date-only string, which ECMAScript parses as midnight UTC; reading the
local calendar components in any timezone west of UTC (offset −60 minutes
here) yields the previous day, so the result is `01/01/2024`, not the
equivalent `02/01/2024`. -/
theorem claim_C6_counterexample :
    normalizeOrderDate (-60) (fun _ => none) "2024-01-02" = ("01/01/2024", none) ∧
      (("01/01/2024", none) : String × Option String) ≠ ("02/01/2024", none) := by
  refine ⟨by decide, by decide⟩

/-- **C6 (amended).** For dates written `p1 sep p2 sep p3` with dash or
slash separators and non-empty all-digit parts — read as `yyyy-mm-dd` when
the first part has four digits and as `dd-mm-yyyy` otherwise — with day in
`[1,31]`, month in `[1,12]`, year in `(1900,2100)`, `normalizeOrderDate`
returns the equivalent `dd/MM/yyyy` string with no warning, **provided**
the host does not pre-empt the manual split with different components: the
timezone offset is non-negative (for the ECMAScript ISO path) and the
engine's implementation-defined legacy parse either fails or returns the
input's own day/month/year.  (Inputs already in `dd/MM/yyyy` shape are the
identity case of C8; under a negative offset an ISO input yields the
previous calendar day, and a V8-style month-first legacy parse of an
ambiguous `dd-mm-yyyy` swaps day and month.) -/
theorem claim_C6 (tz : Int) (legacy : String → Option DateParts)
    (p1 p2 p3 : List Char) (c1 c2 : Char) (d m y : Nat)
    (hc1 : c1 = '-' ∨ c1 = '/') (hc2 : c2 = '-' ∨ c2 = '/')
    (hp1 : p1 ≠ []) (hp2 : p2 ≠ []) (hp3 : p3 ≠ [])
    (hdg1 : ∀ c ∈ p1, c.isDigit = true) (hdg2 : ∀ c ∈ p2, c.isDigit = true)
    (hdg3 : ∀ c ∈ p3, c.isDigit = true)
    (hassign : (p1.length = 4 ∧ y = digitsToNat p1 ∧ m = digitsToNat p2
        ∧ d = digitsToNat p3)
      ∨ (p1.length ≠ 4 ∧ d = digitsToNat p1 ∧ m = digitsToNat p2
        ∧ y = digitsToNat p3))
    (hd : 1 ≤ d ∧ d ≤ 31) (hm : 1 ≤ m ∧ m ≤ 12) (hy : 1900 < y ∧ y < 2100)
    (htz : 0 ≤ tz)
    (hnt : isTargetFormat ⟨p1 ++ c1 :: (p2 ++ c2 :: p3)⟩ = false)
    (hlegacy : legacy ⟨p1 ++ c1 :: (p2 ++ c2 :: p3)⟩ = none ∨
      legacy ⟨p1 ++ c1 :: (p2 ++ c2 :: p3)⟩
        = some ⟨(d : Int), (m : Int), (y : Int)⟩) :
    normalizeOrderDate tz legacy ⟨p1 ++ c1 :: (p2 ++ c2 :: p3)⟩
      = (pad2 (d : Int) ++ "/" ++ pad2 (m : Int) ++ "/" ++ toString (y : Int),
          none) := by
  have hne : (⟨p1 ++ c1 :: (p2 ++ c2 :: p3)⟩ : String) ≠ "" := by
    intro h0
    have hdata : p1 ++ c1 :: (p2 ++ c2 :: p3) = [] := congrArg String.data h0
    rcases List.append_eq_nil.mp hdata with ⟨-, h2⟩
    simp at h2
  have hhead : ∀ c, (p1 ++ c1 :: (p2 ++ c2 :: p3)).head? = some c →
      jsIsSpace c = false := by
    intro c hc
    cases hp1x : p1 with
    | nil => exact absurd hp1x hp1
    | cons a t =>
      rw [hp1x, List.cons_append] at hc
      have hac : a = c := by simpa using hc
      rw [← hac]
      exact digit_not_space a (hdg1 a (by rw [hp1x]; exact List.mem_cons_self a t))
  have hlast : ∀ c, (p1 ++ c1 :: (p2 ++ c2 :: p3)).getLast? = some c →
      jsIsSpace c = false := by
    intro c hc
    rw [List.getLast?_append_of_ne_nil p1 (by simp)] at hc
    rw [show c1 :: (p2 ++ c2 :: p3) = [c1] ++ (p2 ++ c2 :: p3) from rfl] at hc
    rw [List.getLast?_append_of_ne_nil [c1] (by simp)] at hc
    rw [List.getLast?_append_of_ne_nil p2 (by simp)] at hc
    rw [show c2 :: p3 = [c2] ++ p3 from rfl] at hc
    rw [List.getLast?_append_of_ne_nil [c2] hp3] at hc
    exact digit_not_space c (hdg3 c (getLast?_mem_self p3 c hc))
  have htrim : jsTrim ⟨p1 ++ c1 :: (p2 ++ c2 :: p3)⟩
      = (⟨p1 ++ c1 :: (p2 ++ c2 :: p3)⟩ : String) := by
    show String.mk (trimChars (p1 ++ c1 :: (p2 ++ c2 :: p3))) = _
    rw [trimChars_eq_self _ hhead hlast]
  have hmanual := manualSplitDate_parts p1 p2 p3 c1 c2 d m y hc1 hc2 hp1 hp2 hp3
    hdg1 hdg2 hdg3 hassign hd hm hy
  simp only [normalizeOrderDate, hne, if_false, htrim, hnt, Bool.false_eq_true,
    reduceIte]
  unfold jsLocalDateParts
  cases hiso : isoDateShape (p1 ++ c1 :: (p2 ++ c2 :: p3)) with
  | none =>
    simp only [hiso]
    rcases hlegacy with hleg | hleg
    · simp only [hleg, hmanual]
    · simp only [hleg]
      rfl
  | some triple =>
    obtain ⟨yy, mm, dd⟩ := triple
    simp only [hiso]
    unfold isoDateShape at hiso
    split at hiso
    case h_2 => exact absurd hiso (by simp)
    case h_1 y1 y2 y3 y4 s1 m1 m2 s2 d1 d2 heq =>
      split at hiso
      case isFalse => exact absurd hiso (by simp)
      case isTrue hcond =>
        simp only [Option.some.injEq, Prod.mk.injEq] at hiso
        obtain ⟨hyy, hmm, hdd⟩ := hiso
        simp only [Bool.and_eq_true, beq_iff_eq] at hcond
        obtain ⟨⟨⟨⟨⟨⟨⟨⟨⟨hq1, hq2⟩, hq3⟩, hq4⟩, hs1⟩, hq5⟩, hq6⟩, hs2⟩, hq7⟩, hq8⟩ :=
          hcond
        subst hs1
        subst hs2
        have heq2 : p1 ++ c1 :: (p2 ++ c2 :: p3)
            = [y1, y2, y3, y4] ++ '-' :: ([m1, m2] ++ '-' :: [d1, d2]) := heq
        obtain ⟨e1, -, erest⟩ := append_first_non_digit p1 [y1, y2, y3, y4] _ _
          c1 '-' hdg1
          (by
            intro c hcm
            simp only [List.mem_cons, List.not_mem_nil, or_false] at hcm
            rcases hcm with rfl | rfl | rfl | rfl <;> assumption)
          (by rcases hc1 with rfl | rfl <;> decide) (by decide) heq2
        obtain ⟨e2, -, e3⟩ := append_first_non_digit p2 [m1, m2] _ _
          c2 '-' hdg2
          (by
            intro c hcm
            simp only [List.mem_cons, List.not_mem_nil, or_false] at hcm
            rcases hcm with rfl | rfl <;> assumption)
          (by rcases hc2 with rfl | rfl <;> decide) (by decide) erest
        have hlen1 : p1.length = 4 := by rw [e1]; rfl
        rcases hassign with ⟨-, hy', hm', hd'⟩ | ⟨hne4,back1, back2, back3⟩
        swap
        · exact absurd hlen1 hne4
        have hyv : y = yy := by rw [hy', e1]; exact hyy
        have hmv : m = mm := by rw [hm', e2]; exact hmm
        have hdv : d = dd := by rw [hd', e3]; exact hdd
        subst hyv
        subst hmv
        subst hdv
        by_cases hday : ((d : Nat) : Int) ≤ daysInMonth ((y : Nat) : Int) ((m : Nat) : Int)
        · have hcond2 : (1 ≤ m && m ≤ 12 && 1 ≤ d
              && ((d : Nat) : Int) ≤ daysInMonth ((y : Nat) : Int) ((m : Nat) : Int))
                = true := by
            simp only [Bool.and_eq_true, decide_eq_true_eq]
            exact ⟨⟨⟨hm.1, hm.2⟩, hd.1⟩, hday⟩
          simp only [hcond2, if_true]
          rw [if_pos htz]
          rfl
        · have hlastfalse : (decide
              (((d : Nat) : Int) ≤ daysInMonth ((y : Nat) : Int) ((m : Nat) : Int)))
                = false := by
            simp [hday]
          simp only [hlastfalse, Bool.and_false, Bool.false_eq_true, if_false,
            hmanual]

/-- Witness for C6 at `25-12-2024` with the Johannesburg offset (+120
minutes) and a host legacy parser that rejects it (as V8 does for a
month-first reading of `25`). -/
theorem claim_C6_witness :
    (isTargetFormat ⟨['2', '5'] ++ '-' :: (['1', '2'] ++ '-' :: ['2', '0', '2', '4'])⟩
        = false) ∧
    normalizeOrderDate 120 (fun _ => none)
        ⟨['2', '5'] ++ '-' :: (['1', '2'] ++ '-' :: ['2', '0', '2', '4'])⟩
      = (pad2 (25 : Int) ++ "/" ++ pad2 (12 : Int) ++ "/" ++ toString (2024 : Int),
          none) := by
  refine ⟨by decide, ?_⟩
  exact claim_C6 120 (fun _ => none) ['2', '5'] ['1', '2'] ['2', '0', '2', '4']
    '-' '-' 25 12 2024 (Or.inl rfl) (Or.inl rfl) (by decide) (by decide)
    (by decide) (by decide) (by decide) (by decide)
    (Or.inr ⟨by decide, by decide, by decide, by decide⟩)
    (by decide) (by decide) (by decide) (by decide) (by decide) (Or.inl rfl)

end POX
